import Mathlib

/-!
Verification of the frame-accurate media assembly layer of the `straightslop`
video pipeline, shallowly embedded from the Python sources:

* `src/captions.py`   — caption windowing (`add_tiktok_captions`)
* `src/combine_with_fades.py` — crossfade segment planning (`combine_clips_with_fades`)
* `src/ffmpeg_helpers.py` — Ken Burns motion planning (`create_kenburns_with_ffmpeg`)
* `src/makeAnimation.py`  — alternative Ken Burns generator (`ken_burns_effect_ffmpeg`)

Timing arithmetic (Python floats) is modelled over `ℚ`; the claims under study
are order/equality properties of values that the code propagates exactly, so
the rational model is faithful for them.  Python integers are modelled as `ℤ`
(or `ℕ` for indices), with the code's explicit `max`/`min` clamps reproduced.
Subprocess calls (ffmpeg/ffprobe rendering) are external collaborators: the
embedding models the *plans* the code computes and the data it passes to them,
which is what the specification's contracts describe.
-/

namespace StraightSlop

/-! ## Captions (`src/captions.py`)

`add_tiktok_captions` transcribes, splits words into sentences, walks windows
of `CAPTION_WINDOW_SIZE` words inside each sentence and emits one overlay clip
per highlighted word.  We model a transcribed word and the emitted overlay
events (the `ImageClip`s with their window, highlight index and time span). -/

/-- Transcribed word: `{"text": str, "start": float, "end": float}` from
`_transcribe_words`.  The Python `end` field is named `stop` here because
`end` is a Lean keyword. -/
structure TWord where
  text : String
  start : ℚ
  stop : ℚ
deriving Repr, DecidableEq

/-- `CAPTION_PRE_ROLL_S = 0.02` -/
def CAPTION_PRE_ROLL_S : ℚ := 1/50

/-- `CAPTION_POST_ROLL_S = 0.10` -/
def CAPTION_POST_ROLL_S : ℚ := 1/10

/-- `CAPTION_WINDOW_SIZE = 5` -/
def CAPTION_WINDOW_SIZE : ℕ := 5

/-- A word ends a sentence when its text contains one of the terminal
entries: `terminal_chars = set([".", "!", "?", "â€¦"])` with
`ends_sentence = any(ch in wtxt for ch in terminal_chars)` — Python
substring containment for each entry.  The source file stores the fourth
entry as the three-character mojibake sequence `"â€¦"` (bytes
C3A2 E282AC C2A6, a double-encoded ellipsis), not the single ellipsis
character, and it is modelled literally here.  Set iteration order does not
matter for the disjunction. -/
def endsSentence (t : String) : Bool :=
  decide (".".data <:+: t.data) || decide ("!".data <:+: t.data)
    || decide ("?".data <:+: t.data) || decide ("â€¦".data <:+: t.data)

/-- Loop body of the sentence-splitting pass of `add_tiktok_captions`:
walks the words with index `i`, threading `s_start`; a boundary
`(s_start, i+1)` is appended when the word ends a sentence or is the last
word.  The `[]` case models the trailing `if s_start < n` check. -/
def sentenceBoundariesAux (n : ℕ) : List TWord → ℕ → ℕ → List (ℕ × ℕ)
  | [], _, sStart => if sStart < n then [(sStart, n)] else []
  | w :: rest, i, sStart =>
    if endsSentence w.text || i = n - 1 then
      (if i + 1 > sStart then [(sStart, i + 1)] else [])
        ++ sentenceBoundariesAux n rest (i + 1) (i + 1)
    else
      sentenceBoundariesAux n rest (i + 1) sStart

/-- Sentence boundaries `(start_idx, end_idx_exclusive)` exactly as computed
by `add_tiktok_captions`. -/
def sentenceBoundaries (ws : List TWord) : List (ℕ × ℕ) :=
  sentenceBoundariesAux ws.length ws 0 0

/-- Word lookup `words[i]`; indices produced by the walk are in range, the
default mirrors nothing observable. -/
def wordAt (ws : List TWord) (i : ℕ) : TWord :=
  ws.getD i ⟨"", 0, 0⟩

/-- One emitted overlay event: the caption window `[winStart, winEnd)` (word
indices), the absolute index `hl` of the highlighted word, and the time span
`[t0, t1)` (`with_start`/`with_duration` of the `ImageClip`). -/
structure CapEvent where
  winStart : ℕ
  winEnd : ℕ
  hl : ℕ
  t0 : ℚ
  t1 : ℚ
deriving Repr, DecidableEq

/-- Display start of the per-word loop:
`start_time = max(prev_end, max(0, w.start - PRE_ROLL))` for the first word
of a window, `prev_end` otherwise. -/
def stepStart (words : List TWord) (winStart wi : ℕ) (prevEnd : ℚ) : ℚ :=
  if wi = winStart then
    max prevEnd (max 0 ((wordAt words wi).start - CAPTION_PRE_ROLL_S))
  else prevEnd

/-- The `next_start` handoff point of the per-word loop: the next word's
start inside the window; for the last word of a window, the next window's or
next sentence's first word start (or total duration), additionally capped by
`w.end + POST_ROLL` and the total duration.  `nextFirst?` is the first word
index of the next sentence when one exists (the code recovers it via
`sentence_boundaries.index(...) + 1`; boundaries are pairwise distinct so the
lookup finds the current sentence). -/
def stepNextStart (words : List TWord) (total : ℚ) (sEnd : ℕ) (nextFirst? : Option ℕ)
    (winEnd wi : ℕ) : ℚ :=
  if wi < winEnd - 1 then (wordAt words (wi + 1)).start
  else
    let ns0 :=
      if winEnd < sEnd then (wordAt words winEnd).start
      else
        match nextFirst? with
        | some j => if j < words.length then (wordAt words j).start else total
        | none => total
    min (min ns0 ((wordAt words wi).stop + CAPTION_POST_ROLL_S)) total

/-- Display end of the per-word loop: `end_time = min(total_dur, next_start)`
clamped below by `start_time`. -/
def stepEnd (total startTime nextStart : ℚ) : ℚ :=
  let endTime0 := min total nextStart
  if endTime0 < startTime then startTime else endTime0

/-- Body of the per-word loop of `add_tiktok_captions` for word `wi` of
window `[winStart, winEnd)` inside sentence `[_, sEnd)`.  Returns the
emitted event (none when `duration <= 0` hits the `continue`) and the
updated `prev_end`. -/
def stepWord (words : List TWord) (total : ℚ) (sEnd : ℕ) (nextFirst? : Option ℕ)
    (winStart winEnd wi : ℕ) (prevEnd : ℚ) : Option CapEvent × ℚ :=
  let startTime := stepStart words winStart wi prevEnd
  let endTime := stepEnd total startTime (stepNextStart words total sEnd nextFirst? winEnd wi)
  if endTime - startTime ≤ 0 then (none, prevEnd)
  else (some ⟨winStart, winEnd, wi, startTime, endTime⟩, endTime)

/-- Fold of `stepWord` over the word indices of one window, threading
`prev_end` and collecting emitted events in order. -/
def processWords (words : List TWord) (total : ℚ) (sEnd : ℕ) (nf? : Option ℕ)
    (winStart winEnd : ℕ) : List ℕ → ℚ → List CapEvent × ℚ
  | [], p => ([], p)
  | wi :: rest, p =>
    let s := stepWord words total sEnd nf? winStart winEnd wi p
    let r := processWords words total sEnd nf? winStart winEnd rest s.2
    match s.1 with
    | none => r
    | some e => (e :: r.1, r.2)

/-- The `while idx < s_end` window walk of one sentence.  The loop advances
`idx` to `win_end = min(s_end, idx + wsize)` each iteration; since
`wsize ≥ 1` it terminates after at most `sEnd` iterations, which the explicit
`fuel` argument bounds (callers pass `fuel = sEnd`). -/
def processWindows (words : List TWord) (total : ℚ) (wsize : ℕ) (sEnd : ℕ)
    (nf? : Option ℕ) : ℕ → ℕ → ℚ → List CapEvent × ℚ
  | 0, _, p => ([], p)
  | fuel + 1, idx, p =>
    if idx < sEnd then
      let we := min sEnd (idx + wsize)
      let r1 := processWords words total sEnd nf? idx we (List.range' idx (we - idx)) p
      let r2 := processWindows words total wsize sEnd nf? fuel we r1.2
      (r1.1 ++ r2.1, r2.2)
    else ([], p)

/-- Walk the sentences in order (`for (s_start, s_end) in sentence_boundaries`),
propagating `prev_end` across sentences.  The next sentence's first word index
is the head of the remaining boundary list. -/
def processSentences (words : List TWord) (total : ℚ) (wsize : ℕ) :
    List (ℕ × ℕ) → ℚ → List CapEvent × ℚ
  | [], p => ([], p)
  | (s0, s1) :: rest, p =>
    let nf? := rest.head?.map Prod.fst
    let r1 := processWindows words total wsize s1 nf? s1 s0 p
    let r2 := processSentences words total wsize rest r1.2
    (r1.1 ++ r2.1, r2.2)

/-- All overlay events emitted by `add_tiktok_captions` for a word list, a
total (target) duration and a window size (`window_size = max(1, CAPTION_WINDOW_SIZE)`),
starting from `prev_end = 0.0`. -/
def buildEvents (words : List TWord) (total : ℚ) (wsize : ℕ) : List CapEvent :=
  (processSentences words total (max 1 wsize) (sentenceBoundaries words) 0).1

/-- Result of `add_tiktok_captions`: either the input path passed through
unchanged (zero transcribed words) or a rendered output carrying the overlay
events composited over the video. -/
inductive CaptionResult where
  | passthrough (path : String)
  | rendered (events : List CapEvent)
deriving Repr, DecidableEq

/-- Top of `add_tiktok_captions`: `words = _transcribe_words(...)`;
`if not words: return video_path`; otherwise build the per-word overlay clips
and write a new file. -/
def add_tiktok_captions (words : List TWord) (videoPath : String) (total : ℚ) :
    CaptionResult :=
  if words = [] then .passthrough videoPath
  else .rendered (buildEvents words total CAPTION_WINDOW_SIZE)

/-- Relation between consecutive caption events: the earlier event's end is
at most the later event's start, with equality whenever the later event
highlights a non-initial word of its window (its start is then exactly the
threaded `prev_end`). -/
def capRel (a b : CapEvent) : Prop :=
  a.t1 ≤ b.t0 ∧ (b.hl ≠ b.winStart → a.t1 = b.t0)

/-- Invariant of an event run produced by threading `prev_end` from `p` to
`q`: the state only moves forward, events are chained by `capRel`, each event
has a non-empty span inside `[p, q]`, the final state is the last event's end
(or `p` when nothing was emitted), and a leading non-initial-word event
starts exactly at `p`. -/
def EventsSpan (p : ℚ) (evs : List CapEvent) (q : ℚ) : Prop :=
  p ≤ q ∧ List.Chain' capRel evs
  ∧ (∀ e ∈ evs, p ≤ e.t0 ∧ e.t0 < e.t1 ∧ e.t1 ≤ q)
  ∧ q = ((evs.getLast?).map CapEvent.t1).getD p
  ∧ ∀ e ∈ evs.head?, e.hl ≠ e.winStart → e.t0 = p

/-! ## Crossfade combination (`src/combine_with_fades.py`)

`combine_clips_with_fades` probes each clip, computes per-pair fade frame
counts and decomposes the timeline into pass-through cuts and crossfade
transitions, which are rendered and then concatenated with stream copy.  We
model the probing fallback chain and the segment plan. -/

/-- Result of `round()` in Python (ties to even), on the rational model. -/
def pyRound (q : ℚ) : ℤ :=
  let f := ⌊q⌋
  let frac := q - f
  if frac < 1/2 then f
  else if 1/2 < frac then f + 1
  else if f % 2 = 0 then f else f + 1

/-- What ffprobe reports for one media file; `none` models a failed probe
(subprocess error, empty output or `N/A`). -/
structure ProbeData where
  streamNbFrames : Option ℤ
  countedFrames : Option ℤ
  containerDuration : Option ℚ
deriving Repr, DecidableEq

/-- Second half of `_probe_nb_frames`: the `-count_frames` decoded-frame
fallback; a non-positive or missing value falls through to `return 0`. -/
def probeCountedFrames (p : ProbeData) : ℤ :=
  match p.countedFrames with
  | some w => if 0 < w then w else 0
  | none => 0

/-- `_probe_nb_frames`: stream-declared `nb_frames` when positive, else the
counted decoded frames when positive, else 0. -/
def probe_nb_frames (p : ProbeData) : ℤ :=
  match p.streamNbFrames with
  | some v => if 0 < v then v else probeCountedFrames p
  | none => probeCountedFrames p

/-- `_probe_duration_seconds`: `max(0.0, container duration)`, 0.0 on error. -/
def probe_duration_seconds (p : ProbeData) : ℚ :=
  match p.containerDuration with
  | some d => max 0 d
  | none => 0

/-- Effective frame count of a clip as used throughout
`combine_clips_with_fades`:
`nb_frames[i] if nb_frames[i] > 0 else int(round(durations[i] * fps))`. -/
def effFrames (nb : ℤ) (dur : ℚ) (fps : ℕ) : ℤ :=
  if 0 < nb then nb else pyRound (dur * fps)

/-- `requested_fade_frames = max(1, int(round(fade_seconds * fps)))`. -/
def requestedFadeFrames (fadeSeconds : ℚ) (fps : ℕ) : ℤ :=
  max 1 (pyRound (fadeSeconds * fps))

/-- Computed per-pair fades:
`f_frames = max(1, min(requested_fade_frames, ai, bi))` for each adjacent
pair, where `ai`, `bi` are the effective frame counts. -/
def computePairFades (effs : List ℤ) (requested : ℤ) : List ℤ :=
  (List.range (effs.length - 1)).map fun i =>
    max 1 (min requested (min (effs.getD i 0) (effs.getD (i + 1) 0)))

/-- Fade resolution including the override branch: an override list is used
(clamped per entry by `max(1, int(v))`) only when its length is exactly
`max(0, len(video_paths) - 1)`; otherwise fades are computed. -/
def resolvePairFades (effs : List ℤ) (requested : ℤ) (override : Option (List ℤ))
    (numPaths : ℕ) : List ℤ :=
  match override with
  | some l =>
    if l.length = numPaths - 1 then l.map (fun v => max 1 v)
    else computePairFades effs requested
  | none => computePairFades effs requested

/-- A planned timeline segment.  `cut clip startFrame numFrames` is a
pass-through range rendered by `_cut_encode_segment_by_frames`;
`transition i aStartFrame fadeFrames` is the crossfade of the last
`fadeFrames` frames of clip `i` (beginning at `aStartFrame`, as computed
inside `_create_crossfade_segment`) with the first `fadeFrames` frames of
clip `i+1`. -/
inductive Seg where
  | cut (clip : ℕ) (startFrame numFrames : ℤ)
  | transition (pairIdx : ℕ) (aStartFrame fadeFrames : ℤ)
deriving Repr, DecidableEq

/-- Frame count a segment contributes to the final concatenated timeline
(the renderer is trusted to produce exactly the planned count). -/
def segFrames : Seg → ℤ
  | .cut _ _ n => n
  | .transition _ _ f => f

/-- The segment decomposition of `combine_clips_with_fades` for effective
frame counts `effs` and per-pair fades `fades`: pre-segment of clip 0, then
per adjacent pair a transition followed by the interior mid-segment, then the
post-segment of the last clip; segments of non-positive length are omitted. -/
def planSegments (effs fades : List ℤ) : List Seg :=
  let N := effs.length
  let n0 := effs.getD 0 0
  let f0 := fades.getD 0 0
  let preFrames := max 0 (n0 - f0)
  let preSegs := if 0 < preFrames then [Seg.cut 0 0 preFrames] else []
  let pairSegs := (List.range (N - 1)).flatMap fun i =>
    let fi := fades.getD i 0
    let aN := effs.getD i 0
    let t := if 0 < fi then [Seg.transition i (max 0 (aN - fi)) fi] else []
    let m :=
      if 0 < i + 1 ∧ i + 1 < N - 1 then
        let fprev := fades.getD i 0
        let fnext := fades.getD (i + 1) 0
        let bN := effs.getD (i + 1) 0
        let midFrames := max 0 (bN - fprev - fnext)
        if 0 < midFrames then [Seg.cut (i + 1) (max 0 fprev) midFrames] else []
      else []
    t ++ m
  let fLast := fades.getLastD 0
  let nLast := effs.getLastD 0
  let postFrames := max 0 (nLast - fLast)
  let postSegs := if 0 < postFrames then [Seg.cut (N - 1) fLast postFrames] else []
  preSegs ++ pairSegs ++ postSegs

/-- Total frame count of a planned timeline. -/
def totalFrames (segs : List Seg) : ℤ :=
  (segs.map segFrames).sum

/-- Outcome of `combine_clips_with_fades`: the fast path copies the first
input with `-c copy`; the normal path materializes the planned segments and
concatenates them with stream copy; the empty-plan fallback copies the first
input. -/
inductive CombineResult where
  | streamCopy (path : String)
  | plan (segs : List Seg)
  | fallbackCopy (path : String)
deriving Repr, DecidableEq

/-- `combine_clips_with_fades`: raises `ValueError` on an empty path list;
bypasses segmentation for a single clip or a non-positive fade; otherwise
probes, resolves fades and plans the segment list. -/
def combine_clips_with_fades (paths : List String) (probes : List ProbeData)
    (fadeSeconds : ℚ) (fps : ℕ) (override : Option (List ℤ)) :
    Except String CombineResult :=
  match paths with
  | [] => .error "combine_clips_with_fades: video_paths is empty"
  | p0 :: _ =>
    if paths.length = 1 ∨ fadeSeconds ≤ 0 then .ok (.streamCopy p0)
    else
      let durations := probes.map probe_duration_seconds
      let nbFrames := probes.map probe_nb_frames
      let requested := requestedFadeFrames fadeSeconds fps
      let effs := (List.range paths.length).map fun i =>
        effFrames (nbFrames.getD i 0) (durations.getD i 0) fps
      let fades := resolvePairFades effs requested override paths.length
      let segs := planSegments effs fades
      if segs = [] then .ok (.fallbackCopy p0) else .ok (.plan segs)

/-! ## Ken Burns motion planning (`src/ffmpeg_helpers.py`)

`create_kenburns_with_ffmpeg` derives a safe pan box from the smaller frame
footprint of the two zoom endpoints, samples start/end pan offsets inside it
and emits a `zoompan` trajectory.  Randomness (`random.random`,
`random.uniform`) is modelled by a stream `u : ℕ → ℚ` of draws in `[0, 1]`,
consumed in program order; `random.uniform(a, b)` returns `a + (b - a) * u`.
The comparison `math.hypot(dx, dy) >= min_travel` is modelled by comparing
squares, which is equivalent since both sides are non-negative. -/

/-- `random.uniform a b` with draw `v ∈ [0,1]`. -/
def uniformDraw (a b v : ℚ) : ℚ := a + (b - a) * v

/-- `rand_offset()`: a coordinate is drawn only when its half-range is
positive, otherwise it is 0.0 (and no draw is consumed).  Returns the offset
and the next unused stream index. -/
def randOffset (mx my : ℚ) (u : ℕ → ℚ) (k : ℕ) : (ℚ × ℚ) × ℕ :=
  if 0 < mx then
    let ox := uniformDraw (-mx) mx (u k)
    if 0 < my then ((ox, uniformDraw (-my) my (u (k + 1))), k + 2)
    else ((ox, 0), k + 1)
  else
    if 0 < my then ((0, uniformDraw (-my) my (u k)), k + 1)
    else ((0, 0), k)

/-- The `while True` retry loop choosing the end offset: re-sample until the
travel from `(sx, sy)` reaches `min_travel` or `tries > 8`.  `mt2` is
`min_travel²`; the loop runs at most 10 iterations (`tries` 0..9), which the
fuel bounds.  Returns the end offset, the next stream index and the final
`tries` counter. -/
def pickEndOffset (mx my mt2 sx sy : ℚ) (u : ℕ → ℚ) :
    ℕ → ℕ → ℕ → (ℚ × ℚ) × ℕ × ℕ
  | 0, k, tries => ((0, 0), k, tries)
  | fuel + 1, k, tries =>
    let r := randOffset mx my u k
    let dx := r.1.1 - sx
    let dy := r.1.2 - sy
    if mt2 ≤ dx ^ 2 + dy ^ 2 ∨ 8 < tries then (r.1, r.2, tries)
    else pickEndOffset mx my mt2 sx sy u fuel r.2 (tries + 1)

/-- The pan-planning result of `create_kenburns_with_ffmpeg`: the safe
half-ranges and the sampled start/end offsets (source-space pixels), plus the
zoom endpoints after the random direction swap. -/
structure PanPlan where
  maxPanX : ℚ
  maxPanY : ℚ
  startX : ℚ
  startY : ℚ
  endX : ℚ
  endY : ℚ
  zoomStart : ℚ
  zoomEnd : ℚ
deriving Repr, DecidableEq

/-- Safe-pan geometry of `create_kenburns_with_ffmpeg` (lines 59–94), for
the zoom endpoints `zs`, `ze` after the random direction swap: cover scale,
1.25 overscale, smaller frame footprint of the two zoom endpoints, then the
half-pan ranges `max(0, (min_frame - target)/2 - 2)`, optionally capped by
the `pan_max_px` screen-pixel budget. -/
def ckMaxPan (imgW imgH targetW targetH panMaxPx zs ze : ℚ) : ℚ × ℚ :=
  let coverScale := max (targetW / imgW) (targetH / imgH)
  let overscale : ℚ := 5 / 4
  let scaleStart := coverScale * overscale * zs
  let scaleEnd := coverScale * overscale * ze
  let scaledWStart := imgW * scaleStart
  let scaledHStart := imgH * scaleStart
  let scaledWEnd := imgW * scaleEnd
  let scaledHEnd := imgH * scaleEnd
  let minFrameW := min scaledWStart scaledWEnd
  let minFrameH := min scaledHStart scaledHEnd
  let mx0 := max 0 ((minFrameW - targetW) / 2 - 2)
  let my0 := max 0 ((minFrameH - targetH) / 2 - 2)
  let mx := if 0 < panMaxPx then min mx0 (panMaxPx * (minFrameW / max 1 targetW)) else mx0
  let my := if 0 < panMaxPx then min my0 (panMaxPx * (minFrameH / max 1 targetH)) else my0
  (mx, my)

/-- Offset sampling of `create_kenburns_with_ffmpeg` (lines 95–111): start
offset from `rand_offset`, then the minimum-travel retry loop for the end
offset (`min_travel = 0.25*hypot(mx,my)`, replaced by 10.0 when zero; the
comparison is modelled on squares), then the mirroring fallback when the
loop exhausted its 8 retries and some pan range is positive.  Returns
`((start_x, start_y), (end_x, end_y))`. -/
def ckOffsets (mx my : ℚ) (u : ℕ → ℚ) : (ℚ × ℚ) × (ℚ × ℚ) :=
  let s := randOffset mx my u 1
  let sx := s.1.1
  let sy := s.1.2
  let mt2 := if mx ^ 2 + my ^ 2 = 0 then 100 else (mx ^ 2 + my ^ 2) / 16
  let e := pickEndOffset mx my mt2 sx sy u 10 s.2 0
  let ex := if 8 < e.2.2 ∧ 0 < mx + my then -sx else e.1.1
  let ey := if 8 < e.2.2 ∧ 0 < mx + my then -sy else e.1.2
  ((sx, sy), (ex, ey))

/-- Geometry and sampling of `create_kenburns_with_ffmpeg` (lines 59–113):
draw `u 0` decides the random zoom-direction swap
(`random.random() < 0.5`); subsequent draws feed `rand_offset` through
`ckMaxPan` and `ckOffsets`. -/
def create_kenburns_plan (imgW imgH targetW targetH zoomStart zoomEnd panMaxPx : ℚ)
    (u : ℕ → ℚ) : PanPlan :=
  let zs := if u 0 < 1 / 2 then zoomEnd else zoomStart
  let ze := if u 0 < 1 / 2 then zoomStart else zoomEnd
  let m := ckMaxPan imgW imgH targetW targetH panMaxPx zs ze
  let o := ckOffsets m.1 m.2 u
  ⟨m.1, m.2, o.1.1, o.1.2, o.2.1, o.2.2, zs, ze⟩

/-- Width of the pre-scaled base plane fed to `zoompan`:
`base_w = int(2 * round((img_w * base_scale) / 2))` with
`base_scale = cover_scale * overscale` (the `int(...)` truncation is a no-op
on the integral value `2 * round(...)`). -/
def ckBaseW (imgW imgH targetW targetH : ℚ) : ℤ :=
  2 * pyRound (imgW * (max (targetW / imgW) (targetH / imgH) * (5/4)) / 2)

/-- Height of the pre-scaled base plane:
`base_h = int(2 * round((img_h * base_scale) / 2))`. -/
def ckBaseH (imgW imgH targetW targetH : ℚ) : ℤ :=
  2 * pyRound (imgH * (max (targetW / imgW) (targetH / imgH) * (5/4)) / 2)

/-- Origin of the `zoompan` crop window along one axis, read off the emitted
expression `x='(iw-{target_w}/zoom)/2+({x_num})/zoom'`: the centered crop
origin on the base plane (`base` is the plane dimension `iw`/`ih`) plus the
eased pan numerator divided by the current zoom value.  The crop window
spans `[origin, origin + target/zoom)` of the plane. -/
def ckCropOrigin (base : ℤ) (target xnum z : ℚ) : ℚ :=
  ((base : ℚ) - target / z) / 2 + xnum / z

/-- Progress of the `zoompan` expressions emitted by
`create_kenburns_with_ffmpeg`: `p_expr = on / denom_frames` with
`denom_frames = total_frames - 1`. -/
def ckProgress (i n : ℕ) : ℚ := (i : ℚ) / ((n - 1 : ℕ) : ℚ)

/-- The easing factor `ease_expr = p*p*(3 - 2*p)` (smoothstep). -/
def ckEase (p : ℚ) : ℚ := p * p * (3 - 2 * p)

/-- The eased pan interpolation
`x_num = start*(1 - ease) + end*ease` of `create_kenburns_with_ffmpeg`
(the emitted expression divides this by the current zoom, see
`ckCropOrigin`). -/
def ckPanNum (s e p : ℚ) : ℚ := s * (1 - ckEase p) + e * ckEase p

/-- Zoom expression emitted by `create_kenburns_with_ffmpeg`:
`z_expr = "({zoom_start}*pow({zoom_end}/{zoom_start}, on/{denom_frames}))"`,
evaluated by ffmpeg in real arithmetic at frame `i` of `n`
(`denom_frames = n - 1`): the multiplicative (exponential) interpolation
`zs * (ze/zs) ^ (i/(n-1))`. -/
noncomputable def ckZoomAt (zs ze : ℝ) (i n : ℕ) : ℝ :=
  zs * (ze / zs) ^ ((i : ℝ) / ((n - 1 : ℕ) : ℝ))

/-! ## Alternative Ken Burns generator (`src/makeAnimation.py`)

`ken_burns_effect_ffmpeg` emits a different `zoompan` trajectory:
`z = zoom_start + zoom_range*(on/denom_frames)` and
`x = iw/2 - iw/zoom/2 + pan_x_max*(on/denom_frames)` with
`denom_frames = max(1, total_frames - 1)` — additive zoom and an un-eased
linear pan term. -/

/-- Progress used by `ken_burns_effect_ffmpeg`: `on / max(1, total_frames - 1)`. -/
def kbProgress (i n : ℕ) : ℚ := (i : ℚ) / ((max 1 (n - 1) : ℕ) : ℚ)

/-- Zoom of `ken_burns_effect_ffmpeg`:
`zoom_start + zoom_range * (on/denom_frames)` with
`zoom_range = zoom_end - zoom_start`. -/
def kbZoom (zs ze : ℚ) (i n : ℕ) : ℚ := zs + (ze - zs) * kbProgress i n

/-- Pan displacement term of `ken_burns_effect_ffmpeg`:
`pan_x_max * (on/denom_frames)` added to the centered crop origin. -/
def kbPanTerm (panMax : ℚ) (i n : ℕ) : ℚ := panMax * kbProgress i n

/-! ## Helper lemmas -/

/-- Every segment that `planSegments` emits has positive frame count: any
segment whose computed length is `<= 0` is omitted by the guards. -/
theorem planSegments_pos (effs fades : List ℤ) :
    ∀ s ∈ planSegments effs fades, 0 < segFrames s := by
  intro s hs
  simp only [planSegments, List.mem_append, List.mem_flatMap, List.mem_range] at hs
  rcases hs with (hs | ⟨i, hi, hs⟩) | hs
  · split at hs <;> simp_all [segFrames]
  · rcases hs with hs | hs
    · split at hs <;> simp_all [segFrames]
    · split at hs
      · split at hs <;> simp_all [segFrames]
      · simp_all
  · split at hs <;> simp_all [segFrames]

/-- Frame total of concatenated segment lists. -/
theorem totalFrames_append (A B : List Seg) :
    totalFrames (A ++ B) = totalFrames A + totalFrames B := by
  simp [totalFrames]

/-- Frame total of a flatMap plan is the sum of the per-index totals. -/
theorem totalFrames_flatMap (l : List ℕ) (g : ℕ → List Seg) :
    totalFrames (l.flatMap g) = (l.map fun i => totalFrames (g i)).sum := by
  induction l with
  | nil => simp [totalFrames]
  | cons a t ih =>
    unfold totalFrames at ih ⊢
    simp [List.flatMap_cons, List.map_append, List.sum_append, ih]

/-- List sum of a mapped range as a `Finset` sum. -/
theorem sum_map_range (n : ℕ) (f : ℕ → ℤ) :
    ((List.range n).map f).sum = ∑ i in Finset.range n, f i := by
  induction n with
  | zero => simp
  | succ n ih => simp [List.range_succ, Finset.sum_range_succ, ih]

/-- List sum as a `Finset` sum of `getD` lookups. -/
theorem list_sum_getD (l : List ℤ) :
    l.sum = ∑ i in Finset.range l.length, l.getD i 0 := by
  induction l with
  | nil => simp
  | cons a t ih =>
    rw [List.sum_cons, ih, List.length_cons, Finset.sum_range_succ']
    simp [add_comm]

/-- `fades[-1]` (Python) as an indexed lookup. -/
theorem getLastD_eq_getD (l : List ℤ) (d : ℤ) :
    l.getLastD d = l.getD (l.length - 1) d := by
  rw [List.getLastD_eq_getLast?, List.getLast?_eq_getElem?, List.getD_eq_getElem?_getD]

/-! ## Claim theorems -/

/-- C10: if transcription returns zero words, `add_tiktok_captions` is a
no-op: it returns the input video path unchanged and renders nothing. -/
theorem captions_zero_words_passthrough (videoPath : String) (total : ℚ) :
    add_tiktok_captions [] videoPath total = .passthrough videoPath := rfl

/-- C8: a single-clip input, or a zero requested fade duration, bypasses
segmentation entirely and stream-copies the first clip to the output. -/
theorem combine_fast_path_stream_copy (p0 : String) (rest : List String)
    (probes : List ProbeData) (fadeSeconds : ℚ) (fps : ℕ) (override : Option (List ℤ))
    (h : rest = [] ∨ fadeSeconds = 0) :
    combine_clips_with_fades (p0 :: rest) probes fadeSeconds fps override =
      .ok (.streamCopy p0) := by
  rcases h with h | h
  · subst h; simp [combine_clips_with_fades]
  · subst h; simp [combine_clips_with_fades]

/-- Closed witness for `combine_fast_path_stream_copy`. -/
theorem combine_fast_path_stream_copy_witness :
    combine_clips_with_fades ["only.mp4"] [] 1 60 none = .ok (.streamCopy "only.mp4") :=
  combine_fast_path_stream_copy "only.mp4" [] [] 1 60 none (Or.inl rfl)

/-- C3: the timeline decomposition of `combine_clips_with_fades` — on three
clips of 120, 90, 150 frames at fps 60 and requested fade 0.5 s the plan is,
in strict order, the pre-segment `[0,90)` of clip 0, transition 0 from
clip 0 frame 90 with 30 fade frames, the mid-segment `[30,60)` of clip 1,
transition 1 from clip 1 frame 60 with 30 fade frames, and the post-segment
`[30,150)` of clip 2, for 300 total frames; and in general every emitted
segment has positive computed length (non-positive segments are omitted). -/
theorem segment_decomposition_plan :
    requestedFadeFrames (1/2) 60 = 30
    ∧ computePairFades [120, 90, 150] 30 = [30, 30]
    ∧ combine_clips_with_fades ["c0.mp4", "c1.mp4", "c2.mp4"]
        [⟨some 120, none, none⟩, ⟨some 90, none, none⟩, ⟨some 150, none, none⟩]
        (1/2) 60 none =
      .ok (.plan [Seg.cut 0 0 90, Seg.transition 0 90 30, Seg.cut 1 30 30,
                  Seg.transition 1 60 30, Seg.cut 2 30 120])
    ∧ totalFrames [Seg.cut 0 0 90, Seg.transition 0 90 30, Seg.cut 1 30 30,
                   Seg.transition 1 60 30, Seg.cut 2 30 120] = 300
    ∧ (120 + 90 + 150 - 30 - 30 : ℤ) = 300
    ∧ ∀ effs fades : List ℤ, ∀ s ∈ planSegments effs fades, 0 < segFrames s := by
  refine ⟨?_, ?_, ?_, ?_, by norm_num, planSegments_pos⟩
  · norm_num [requestedFadeFrames, pyRound]
  · norm_num [computePairFades, List.range_succ]
  · norm_num [combine_clips_with_fades, requestedFadeFrames, pyRound, resolvePairFades,
      computePairFades, planSegments, effFrames, probe_nb_frames, probe_duration_seconds,
      List.range_succ]
    exact fun h => absurd h (List.cons_ne_nil _ _)
  · norm_num [totalFrames, segFrames]

/-- Closed witness for `segment_decomposition_plan` (instantiates the
universally quantified omission clause at the concrete plan). -/
theorem segment_decomposition_plan_witness :
    0 < segFrames (Seg.cut 0 0 90) :=
  segment_decomposition_plan.2.2.2.2.2 [120, 90, 150] [30, 30] (Seg.cut 0 0 90)
    (by norm_num [planSegments, List.range_succ])

/-- C5 counterexample: the two Ken Burns generators do not share the
smoothstep-eased pan formula.  At frame 1 of 5 (progress 1/4) with pan
endpoints 0 and 32, `ken_burns_effect_ffmpeg` emits the un-eased linear term
`32 * 1/4 = 8`, while the smoothstep-eased interpolation used by
`create_kenburns_with_ffmpeg` (and asserted by the claim for both
generators) gives `32 * smoothstep(1/4) = 5`. -/
theorem kenburns_formulas_cex :
    kbPanTerm 32 1 5 = 8
    ∧ ckPanNum 0 32 (kbProgress 1 5) = 5
    ∧ (8 : ℚ) ≠ 5
    ∧ kbZoom (21/20) (23/20) 2 5 = 11/10 := by
  norm_num [kbPanTerm, ckPanNum, kbProgress, ckEase, kbZoom]

/-- C5 amended: `create_kenburns_with_ffmpeg` emits progress
`i/(n-1)`, the smoothstep easing `3p² - 2p³`, the eased pan lerp
`start + (end-start)*smoothstep(p)` — whose numerator the emitted
expression divides by the current zoom, so the crop origin moves by exactly
`x_num/zoom` relative to the centered origin — and the multiplicative zoom
`zoom_start * pow(zoom_end/zoom_start, i/(n-1))`, which starts at
`zoom_start`, ends at `zoom_end`, and whose half-way value is the geometric
mean of the endpoints (`z(1/2)² = zs·ze`); while `ken_burns_effect_ffmpeg`
instead uses the additive linear zoom `zoom_start + (zoom_end - zoom_start)*p`
(half-way value the arithmetic mean) and an un-eased linear pan term
`pan_max * p`, with `p = i / max(1, n-1)`. -/
theorem kenburns_motion_formulas (p sx ex zs ze : ℚ) (i n : ℕ) (hn : 2 ≤ n)
    (zsR zeR : ℝ) (hzsR : 0 < zsR) (hzeR : 0 < zeR) :
    ckEase p = 3 * p ^ 2 - 2 * p ^ 3
    ∧ ckPanNum sx ex p = sx + (ex - sx) * (3 * p ^ 2 - 2 * p ^ 3)
    ∧ ckProgress i n = (i : ℚ) / ((n : ℚ) - 1)
    ∧ ckZoomAt zsR zeR 0 n = zsR
    ∧ ckZoomAt zsR zeR (n - 1) n = zeR
    ∧ ckZoomAt zsR zeR 1 3 ^ 2 = zsR * zeR
    ∧ (∀ (bw : ℤ) (tw xnum zq : ℚ),
        ckCropOrigin bw tw xnum zq - ckCropOrigin bw tw 0 zq = xnum / zq)
    ∧ kbProgress i n = (i : ℚ) / ((n : ℚ) - 1)
    ∧ kbZoom zs ze i n = zs + (ze - zs) * ((i : ℚ) / ((n : ℚ) - 1))
    ∧ kbZoom zs ze 1 3 = (zs + ze) / 2
    ∧ kbPanTerm 1 i n = (i : ℚ) / ((n : ℚ) - 1) := by
  have h2 : max 1 (n - 1) = n - 1 := by omega
  have h1 : ((n - 1 : ℕ) : ℚ) = (n : ℚ) - 1 := by
    rw [Nat.cast_sub (by omega)]; norm_num
  have hzs' : zsR ≠ 0 := ne_of_gt hzsR
  refine ⟨by unfold ckEase; ring, by unfold ckPanNum ckEase; ring, ?_, ?_, ?_, ?_,
    ?_, ?_, ?_, ?_, ?_⟩
  · unfold ckProgress; rw [h1]
  · unfold ckZoomAt; simp
  · unfold ckZoomAt
    have hone : ((n - 1 : ℕ) : ℝ) ≠ 0 := Nat.cast_ne_zero.mpr (by omega)
    rw [div_self hone, Real.rpow_one]
    field_simp
  · unfold ckZoomAt
    have hx : (0:ℝ) ≤ zeR / zsR := le_of_lt (div_pos hzeR hzsR)
    norm_num
    rw [mul_pow, ← Real.rpow_natCast ((zeR/zsR) ^ ((1:ℝ)/2)) 2, ← Real.rpow_mul hx]
    norm_num
    field_simp
    ring
  · intro bw tw xnum zq; unfold ckCropOrigin; ring
  · unfold kbProgress; rw [h2, h1]
  · unfold kbZoom kbProgress; rw [h2, h1]
  · unfold kbZoom kbProgress; norm_num; ring
  · unfold kbPanTerm kbProgress; rw [h2, h1, one_mul]

/-- Closed witness for `kenburns_motion_formulas`. -/
theorem kenburns_motion_formulas_witness :
    ckEase (1/4) = 3 * (1/4 : ℚ) ^ 2 - 2 * (1/4 : ℚ) ^ 3
    ∧ ckPanNum 0 32 (1/4) = 0 + (32 - 0) * (3 * (1/4 : ℚ) ^ 2 - 2 * (1/4 : ℚ) ^ 3)
    ∧ ckProgress 1 5 = (1 : ℚ) / ((5 : ℚ) - 1)
    ∧ ckZoomAt 2 8 0 5 = 2
    ∧ ckZoomAt 2 8 (5 - 1) 5 = 8
    ∧ ckZoomAt 2 8 1 3 ^ 2 = 2 * 8
    ∧ ckCropOrigin 100 1920 7 2 - ckCropOrigin 100 1920 0 2 = 7 / 2
    ∧ kbProgress 1 5 = (1 : ℚ) / ((5 : ℚ) - 1)
    ∧ kbZoom (21/20) (23/20) 1 5 = 21/20 + (23/20 - 21/20) * ((1 : ℚ) / ((5 : ℚ) - 1))
    ∧ kbZoom (21/20) (23/20) 1 3 = (21/20 + 23/20) / 2
    ∧ kbPanTerm 1 1 5 = (1 : ℚ) / ((5 : ℚ) - 1) :=
  have h := kenburns_motion_formulas (1/4) 0 32 (21/20) (23/20) 1 5 (by norm_num)
    2 8 (by norm_num) (by norm_num)
  ⟨h.1, h.2.1, h.2.2.1, h.2.2.2.1, h.2.2.2.2.1, h.2.2.2.2.2.1,
   h.2.2.2.2.2.2.1 100 1920 7 2, h.2.2.2.2.2.2.2.1, h.2.2.2.2.2.2.2.2.1,
   h.2.2.2.2.2.2.2.2.2.1, h.2.2.2.2.2.2.2.2.2.2⟩

/-- C6 counterexample: the per-pair override path only clamps each entry by
`max(1, v)` and does not bound it by the adjoining clips, so an override of
1000 frames on two 10-frame clips yields a fade of 1000 frames, violating
the claimed invariant `fade ≤ min(frames(i), frames(i+1))`. -/
theorem fade_override_invariant_cex :
    resolvePairFades [10, 10] 30 (some [1000]) 2 = [1000]
    ∧ combine_clips_with_fades ["a.mp4", "b.mp4"]
        [⟨some 10, none, none⟩, ⟨some 10, none, none⟩] (1/2) 60 (some [1000]) =
      .ok (.plan [Seg.transition 0 0 1000])
    ∧ ¬ ((1000 : ℤ) ≤ min 10 10) := by
  refine ⟨by norm_num [resolvePairFades], ?_, by norm_num⟩
  norm_num [combine_clips_with_fades, requestedFadeFrames, pyRound, resolvePairFades,
    planSegments, effFrames, probe_nb_frames, probe_duration_seconds, List.range_succ]

/-- C6 amended: for the computed path, each pair's fade equals
`max(1, min(requested, frames(i), frames(i+1)))`, hence is at least 1 and —
whenever both adjoining clips have at least one frame — at most the shorter
of the two; the override path guarantees only the lower bound of 1. -/
theorem fade_invariant_computed :
    (∀ (effs : List ℤ) (requested : ℤ) (i : ℕ), i + 1 < effs.length →
      1 ≤ effs.getD i 0 → 1 ≤ effs.getD (i + 1) 0 →
      (computePairFades effs requested).getD i 0 =
        max 1 (min requested (min (effs.getD i 0) (effs.getD (i + 1) 0)))
      ∧ 1 ≤ (computePairFades effs requested).getD i 0
      ∧ (computePairFades effs requested).getD i 0 ≤ effs.getD i 0
      ∧ (computePairFades effs requested).getD i 0 ≤ effs.getD (i + 1) 0)
    ∧ ∀ (effs : List ℤ) (requested : ℤ) (override : Option (List ℤ)) (numPaths : ℕ),
      ∀ f ∈ resolvePairFades effs requested override numPaths, 1 ≤ f := by
  constructor
  · intro effs requested i hi ha hb
    have hi' : i < effs.length - 1 := by omega
    have hv : (computePairFades effs requested).getD i 0 =
        max 1 (min requested (min (effs.getD i 0) (effs.getD (i + 1) 0))) := by
      simp [computePairFades, List.getD, hi']
    refine ⟨hv, ?_, ?_, ?_⟩
    · rw [hv]; exact le_max_left _ _
    · rw [hv]
      exact max_le ha (le_trans (min_le_right _ _) (min_le_left _ _))
    · rw [hv]
      exact max_le hb (le_trans (min_le_right _ _) (min_le_right _ _))
  · intro effs requested override numPaths f hf
    have hc : ∀ g ∈ computePairFades effs requested, (1 : ℤ) ≤ g := by
      intro g hg
      simp only [computePairFades, List.mem_map, List.mem_range] at hg
      obtain ⟨j, -, rfl⟩ := hg
      exact le_max_left _ _
    rcases override with _ | l
    · simp only [resolvePairFades] at hf
      exact hc f hf
    · simp only [resolvePairFades] at hf
      split at hf
      · obtain ⟨v, -, rfl⟩ := List.mem_map.1 hf
        exact le_max_left _ _
      · exact hc f hf

/-- Closed witness for `fade_invariant_computed`. -/
theorem fade_invariant_computed_witness :
    ((computePairFades [100, 90] 30).getD 0 0 = max 1 (min 30 (min 100 90))
      ∧ 1 ≤ (computePairFades [100, 90] 30).getD 0 0
      ∧ (computePairFades [100, 90] 30).getD 0 0 ≤ 100
      ∧ (computePairFades [100, 90] 30).getD 0 0 ≤ 90)
    ∧ 1 ≤ (30 : ℤ) := by
  refine ⟨?_, by norm_num⟩
  have h := fade_invariant_computed.1 [100, 90] 30 0 (by norm_num) (by norm_num) (by norm_num)
  simpa using h

/-- C2 counterexample: on clips of 100, 90, 100 frames with a large requested
fade (2 s at 60 fps = 120 frames) the computed fades are `[90, 90]`, each at
most the shorter adjoining clip, yet the interior mid-segment clamps to zero
and the plan totals 200 frames, not `sum(n) - sum(f) = 110`. -/
theorem combined_total_frames_cex :
    requestedFadeFrames 2 60 = 120
    ∧ computePairFades [100, 90, 100] 120 = [90, 90]
    ∧ ((90 : ℤ) ≤ min 100 90 ∧ (90 : ℤ) ≤ min 90 100)
    ∧ combine_clips_with_fades ["a.mp4", "b.mp4", "c.mp4"]
        [⟨some 100, none, none⟩, ⟨some 90, none, none⟩, ⟨some 100, none, none⟩]
        2 60 none =
      .ok (.plan [Seg.cut 0 0 10, Seg.transition 0 10 90,
                  Seg.transition 1 0 90, Seg.cut 2 90 10])
    ∧ totalFrames [Seg.cut 0 0 10, Seg.transition 0 10 90,
                   Seg.transition 1 0 90, Seg.cut 2 90 10] = 200
    ∧ (100 + 90 + 100 : ℤ) - (90 + 90) = 110
    ∧ (200 : ℤ) ≠ 110 := by
  refine ⟨by norm_num [requestedFadeFrames, pyRound], ?_, by norm_num, ?_, ?_, by norm_num, by norm_num⟩
  · norm_num [computePairFades, List.range_succ]
  · norm_num [combine_clips_with_fades, requestedFadeFrames, pyRound, resolvePairFades,
      computePairFades, planSegments, effFrames, probe_nb_frames, probe_duration_seconds,
      List.range_succ]
    exact fun h => absurd h (List.cons_ne_nil _ _)
  · norm_num [totalFrames, segFrames]

/-- C7 counterexample: when every probe of a clip fails, its duration
defaults to 0 but `combine_clips_with_fades` does not surface a fatal error:
it silently plans the timeline, emitting a degenerate 1-frame transition
drawn from the unprobeable clip. -/
theorem probe_failure_no_fatal_error_cex :
    probe_nb_frames ⟨none, none, none⟩ = 0
    ∧ probe_duration_seconds ⟨none, none, none⟩ = 0
    ∧ combine_clips_with_fades ["bad.mp4", "ok.mp4"]
        [⟨none, none, none⟩, ⟨some 10, none, none⟩] (1/2) 60 none =
      .ok (.plan [Seg.transition 0 0 1, Seg.cut 1 1 9]) := by
  refine ⟨rfl, rfl, ?_⟩
  norm_num [combine_clips_with_fades, requestedFadeFrames, pyRound, resolvePairFades,
    computePairFades, planSegments, effFrames, probe_nb_frames, probeCountedFrames,
    probe_duration_seconds, List.range_succ]
  exact fun h => absurd h (List.cons_ne_nil _ _)

/-- C1 counterexample: two one-word sentences, `"a."` spanning `[0,1]` and
`"b."` spanning `[2,3]`, with total duration 5.  The first window ends at
`1.1` (word end plus post-roll) while the second starts at `1.98` (word
start minus pre-roll): a gap, not `end = next start`; and the final window
ends at `3.1`, short of the total duration 5. -/
theorem caption_tiling_gap_cex :
    buildEvents [⟨"a.", 0, 1⟩, ⟨"b.", 2, 3⟩] 5 5 =
      [⟨0, 1, 0, 0, 11/10⟩, ⟨1, 2, 1, 99/50, 31/10⟩]
    ∧ (11/10 : ℚ) ≠ 99/50
    ∧ (31/10 : ℚ) ≠ 5 := by
  have ea : endsSentence "a." = true := by decide
  have eb : endsSentence "b." = true := by decide
  refine ⟨?_, by norm_num, by norm_num⟩
  norm_num [buildEvents, processSentences, processWindows, processWords, stepWord,
    stepStart, stepNextStart, stepEnd, sentenceBoundaries, sentenceBoundariesAux,
    ea, eb, wordAt, CAPTION_PRE_ROLL_S, CAPTION_POST_ROLL_S]

/-- C9 counterexample: a time-ordered three-word list (starts 1, 1.6, 1.6)
in which the middle word's computed display span is empty (the next word
starts at the same instant), so the `duration <= 0` guard skips it: the
word list yields highlight events only for words 0 and 2, not one per
word. -/
theorem caption_highlight_skip_cex :
    List.Chain' (fun a b : TWord => a.start ≤ b.start)
      [⟨"a.", 1, 3/2⟩, ⟨"b", 8/5, 17/10⟩, ⟨"c.", 8/5, 9/5⟩]
    ∧ buildEvents [⟨"a.", 1, 3/2⟩, ⟨"b", 8/5, 17/10⟩, ⟨"c.", 8/5, 9/5⟩] 5 5 =
      [⟨0, 1, 0, 49/50, 8/5⟩, ⟨1, 3, 2, 8/5, 19/10⟩]
    ∧ (buildEvents [⟨"a.", 1, 3/2⟩, ⟨"b", 8/5, 17/10⟩, ⟨"c.", 8/5, 9/5⟩] 5 5).map
        CapEvent.hl = [0, 2] := by
  have e1 : endsSentence "a." = true := by decide
  have e2 : endsSentence "b" = false := by decide
  have e3 : endsSentence "c." = true := by decide
  refine ⟨?_, ?_, ?_⟩ <;>
  norm_num [buildEvents, processSentences, processWindows, processWords, stepWord,
    stepStart, stepNextStart, stepEnd, sentenceBoundaries, sentenceBoundariesAux,
    e1, e2, e3, wordAt, CAPTION_PRE_ROLL_S, CAPTION_POST_ROLL_S, List.chain'_cons]

/-- Bounds of `random.uniform (-m) m` for a draw in `[0,1]`. -/
theorem uniformDraw_bounds (m v : ℚ) (hm : 0 ≤ m) (h0 : 0 ≤ v) (h1 : v ≤ 1) :
    -m ≤ uniformDraw (-m) m v ∧ uniformDraw (-m) m v ≤ m := by
  unfold uniformDraw
  constructor <;> nlinarith

/-- The offsets drawn by `rand_offset` lie in the safe box, and a zero
half-range forces the corresponding coordinate to zero. -/
theorem randOffset_bounds (mx my : ℚ) (hmx : 0 ≤ mx) (hmy : 0 ≤ my) (u : ℕ → ℚ)
    (hu : ∀ n, 0 ≤ u n ∧ u n ≤ 1) (k : ℕ) :
    (-mx ≤ (randOffset mx my u k).1.1 ∧ (randOffset mx my u k).1.1 ≤ mx)
    ∧ (-my ≤ (randOffset mx my u k).1.2 ∧ (randOffset mx my u k).1.2 ≤ my)
    ∧ (mx = 0 → (randOffset mx my u k).1.1 = 0)
    ∧ (my = 0 → (randOffset mx my u k).1.2 = 0) := by
  unfold randOffset
  by_cases hx : 0 < mx
  · by_cases hy : 0 < my
    · rw [if_pos hx, if_pos hy]
      exact ⟨uniformDraw_bounds mx (u k) hmx (hu k).1 (hu k).2,
        uniformDraw_bounds my (u (k + 1)) hmy (hu (k + 1)).1 (hu (k + 1)).2,
        fun h => absurd hx (by rw [h]; exact lt_irrefl 0),
        fun h => absurd hy (by rw [h]; exact lt_irrefl 0)⟩
    · rw [if_pos hx, if_neg hy]
      exact ⟨uniformDraw_bounds mx (u k) hmx (hu k).1 (hu k).2,
        ⟨neg_nonpos.2 hmy, hmy⟩,
        fun h => absurd hx (by rw [h]; exact lt_irrefl 0),
        fun _ => rfl⟩
  · by_cases hy : 0 < my
    · rw [if_neg hx, if_pos hy]
      exact ⟨⟨neg_nonpos.2 hmx, hmx⟩,
        uniformDraw_bounds my (u k) hmy (hu k).1 (hu k).2,
        fun _ => rfl,
        fun h => absurd hy (by rw [h]; exact lt_irrefl 0)⟩
    · rw [if_neg hx, if_neg hy]
      exact ⟨⟨neg_nonpos.2 hmx, hmx⟩, ⟨neg_nonpos.2 hmy, hmy⟩, fun _ => rfl, fun _ => rfl⟩

/-- The retry loop's result stays in the safe box, with zero half-ranges
forcing zero coordinates, for any fuel, stream index and tries counter. -/
theorem pickEndOffset_bounds (mx my mt2 sx sy : ℚ) (hmx : 0 ≤ mx) (hmy : 0 ≤ my)
    (u : ℕ → ℚ) (hu : ∀ n, 0 ≤ u n ∧ u n ≤ 1) :
    ∀ (fuel k tries : ℕ),
    (-mx ≤ (pickEndOffset mx my mt2 sx sy u fuel k tries).1.1
      ∧ (pickEndOffset mx my mt2 sx sy u fuel k tries).1.1 ≤ mx)
    ∧ (-my ≤ (pickEndOffset mx my mt2 sx sy u fuel k tries).1.2
      ∧ (pickEndOffset mx my mt2 sx sy u fuel k tries).1.2 ≤ my)
    ∧ (mx = 0 → (pickEndOffset mx my mt2 sx sy u fuel k tries).1.1 = 0)
    ∧ (my = 0 → (pickEndOffset mx my mt2 sx sy u fuel k tries).1.2 = 0) := by
  intro fuel
  induction fuel with
  | zero =>
    intro k tries
    exact ⟨⟨neg_nonpos.2 hmx, hmx⟩, ⟨neg_nonpos.2 hmy, hmy⟩, fun _ => rfl, fun _ => rfl⟩
  | succ n ih =>
    intro k tries
    unfold pickEndOffset
    dsimp only
    split
    · exact ⟨(randOffset_bounds mx my hmx hmy u hu k).1,
        (randOffset_bounds mx my hmx hmy u hu k).2.1,
        (randOffset_bounds mx my hmx hmy u hu k).2.2.1,
        (randOffset_bounds mx my hmx hmy u hu k).2.2.2⟩
    · exact ih _ _

/-- The computed safe half-pan ranges are non-negative whenever the image,
the target frame and both zoom endpoints are positive. -/
theorem ckMaxPan_nonneg (imgW imgH targetW targetH panMaxPx zs ze : ℚ)
    (hiw : 0 < imgW) (hih : 0 < imgH) (htw : 0 < targetW) (hth : 0 < targetH)
    (hzs : 0 < zs) (hze : 0 < ze) :
    0 ≤ (ckMaxPan imgW imgH targetW targetH panMaxPx zs ze).1
    ∧ 0 ≤ (ckMaxPan imgW imgH targetW targetH panMaxPx zs ze).2 := by
  have hcover : 0 < max (targetW / imgW) (targetH / imgH) :=
    lt_max_of_lt_left (div_pos htw hiw)
  unfold ckMaxPan
  dsimp only
  constructor
  · split
    · refine le_min (le_max_left 0 _) ?_
      have h1 : (0:ℚ) < min (imgW * (max (targetW / imgW) (targetH / imgH) * (5/4) * zs))
          (imgW * (max (targetW / imgW) (targetH / imgH) * (5/4) * ze)) := by
        apply lt_min <;> positivity
      have h2 : (0:ℚ) < max 1 targetW := lt_max_of_lt_left one_pos
      positivity
    · exact le_max_left 0 _
  · split
    · refine le_min (le_max_left 0 _) ?_
      have h1 : (0:ℚ) < min (imgH * (max (targetW / imgW) (targetH / imgH) * (5/4) * zs))
          (imgH * (max (targetW / imgW) (targetH / imgH) * (5/4) * ze)) := by
        apply lt_min <;> positivity
      have h2 : (0:ℚ) < max 1 targetH := lt_max_of_lt_left one_pos
      positivity
    · exact le_max_left 0 _

/-- Both sampled offsets of `ckOffsets` lie in the safe box; zero half-ranges
force the corresponding coordinates to zero (including through the mirroring
fallback). -/
theorem ckOffsets_bounds (mx my : ℚ) (hmx : 0 ≤ mx) (hmy : 0 ≤ my) (u : ℕ → ℚ)
    (hu : ∀ n, 0 ≤ u n ∧ u n ≤ 1) :
    (-mx ≤ (ckOffsets mx my u).1.1 ∧ (ckOffsets mx my u).1.1 ≤ mx)
    ∧ (-my ≤ (ckOffsets mx my u).1.2 ∧ (ckOffsets mx my u).1.2 ≤ my)
    ∧ (-mx ≤ (ckOffsets mx my u).2.1 ∧ (ckOffsets mx my u).2.1 ≤ mx)
    ∧ (-my ≤ (ckOffsets mx my u).2.2 ∧ (ckOffsets mx my u).2.2 ≤ my)
    ∧ (mx = 0 → (ckOffsets mx my u).1.1 = 0 ∧ (ckOffsets mx my u).2.1 = 0)
    ∧ (my = 0 → (ckOffsets mx my u).1.2 = 0 ∧ (ckOffsets mx my u).2.2 = 0) := by
  obtain ⟨hsx, hsy, hsx0, hsy0⟩ := randOffset_bounds mx my hmx hmy u hu 1
  unfold ckOffsets
  dsimp only
  set s := randOffset mx my u 1 with hs
  set mt2 := if mx ^ 2 + my ^ 2 = 0 then (100:ℚ) else (mx ^ 2 + my ^ 2) / 16 with hmt
  obtain ⟨hex, hey, hex0, hey0⟩ :=
    pickEndOffset_bounds mx my mt2 s.1.1 s.1.2 hmx hmy u hu 10 s.2 0
  refine ⟨hsx, hsy, ?_, ?_, ?_, ?_⟩
  · split
    · exact ⟨neg_le_neg hsx.2, by simpa using neg_le_neg hsx.1⟩
    · exact hex
  · split
    · exact ⟨neg_le_neg hsy.2, by simpa using neg_le_neg hsy.1⟩
    · exact hey
  · intro h
    refine ⟨hsx0 h, ?_⟩
    split
    · rw [hsx0 h, neg_zero]
    · exact hex0 h
  · intro h
    refine ⟨hsy0 h, ?_⟩
    split
    · rw [hsy0 h, neg_zero]
    · exact hey0 h

/-- Python rounding lands within half a unit of its argument. -/
theorem pyRound_bounds (q : ℚ) :
    q - 1/2 ≤ (pyRound q : ℚ) ∧ (pyRound q : ℚ) ≤ q + 1/2 := by
  have h1 := Int.floor_le q
  have h2 := Int.lt_floor_add_one q
  unfold pyRound
  dsimp only
  by_cases hc1 : q - (⌊q⌋ : ℚ) < 1/2
  · rw [if_pos hc1]
    constructor <;> linarith
  · rw [if_neg hc1]
    by_cases hc2 : (1:ℚ)/2 < q - (⌊q⌋ : ℚ)
    · rw [if_pos hc2]
      constructor <;> push_cast <;> linarith
    · rw [if_neg hc2]
      by_cases hc3 : ⌊q⌋ % 2 = 0
      · rw [if_pos hc3]
        constructor <;> linarith
      · rw [if_neg hc3]
        constructor <;> push_cast <;> linarith

/-- The even-rounded base plane width loses at most one pixel against the
un-rounded scaled width. -/
theorem ckBaseW_ge (imgW imgH targetW targetH : ℚ) :
    imgW * (max (targetW / imgW) (targetH / imgH) * (5/4)) - 1
      ≤ ((ckBaseW imgW imgH targetW targetH : ℤ) : ℚ) := by
  have h := (pyRound_bounds (imgW * (max (targetW / imgW) (targetH / imgH) * (5/4)) / 2)).1
  unfold ckBaseW
  push_cast
  linarith

/-- The even-rounded base plane height loses at most one pixel against the
un-rounded scaled height. -/
theorem ckBaseH_ge (imgW imgH targetW targetH : ℚ) :
    imgH * (max (targetW / imgW) (targetH / imgH) * (5/4)) - 1
      ≤ ((ckBaseH imgW imgH targetW targetH : ℤ) : ℚ) := by
  have h := (pyRound_bounds (imgH * (max (targetW / imgW) (targetH / imgH) * (5/4)) / 2)).1
  unfold ckBaseH
  push_cast
  linarith

/-- The smoothstep easing maps the unit interval into itself, so every
frame of the trajectory interpolates between the two sampled offsets. -/
theorem ckEase_mem (p : ℚ) (h0 : 0 ≤ p) (h1 : p ≤ 1) :
    0 ≤ ckEase p ∧ ckEase p ≤ 1 := by
  unfold ckEase
  constructor
  · nlinarith
  · nlinarith [mul_nonneg (sq_nonneg (1 - p)) (by linarith : (0:ℚ) ≤ 1 + 2 * p)]

/-- A convex combination of two values of a symmetric box stays in the box. -/
theorem lerp_mem (mx sx ex e : ℚ) (h1 : -mx ≤ sx) (h2 : sx ≤ mx) (h3 : -mx ≤ ex)
    (h4 : ex ≤ mx) (he0 : 0 ≤ e) (he1 : e ≤ 1) :
    -mx ≤ sx * (1 - e) + ex * e ∧ sx * (1 - e) + ex * e ≤ mx := by
  constructor <;> nlinarith

/-- The safe half-pan ranges never exceed the uncapped geometric bound
derived from the smaller frame footprint. -/
theorem ckMaxPan_le (imgW imgH targetW targetH panMaxPx zs ze : ℚ) :
    (ckMaxPan imgW imgH targetW targetH panMaxPx zs ze).1
      ≤ max 0 ((min (imgW * (max (targetW / imgW) (targetH / imgH) * (5/4) * zs))
          (imgW * (max (targetW / imgW) (targetH / imgH) * (5/4) * ze)) - targetW) / 2 - 2)
    ∧ (ckMaxPan imgW imgH targetW targetH panMaxPx zs ze).2
      ≤ max 0 ((min (imgH * (max (targetW / imgW) (targetH / imgH) * (5/4) * zs))
          (imgH * (max (targetW / imgW) (targetH / imgH) * (5/4) * ze)) - targetH) / 2 - 2) := by
  unfold ckMaxPan
  dsimp only
  constructor <;> split
  · exact min_le_left _ _
  · exact le_refl _
  · exact min_le_left _ _
  · exact le_refl _

/-- Core geometric safety along one axis: if the half-pan range `mx`
respects the footprint bound, the offset stays within `[-mx, mx]`, the
rounded plane dimension `iw` loses at most one pixel against the scaled
dimension `A`, and the zoom value stays at most 4 (`zoompan` clamps it below
at 1), then the crop window `[origin, origin + t/zoom)` lies inside
`[0, iw]`. -/
theorem crop_axis_safe (t iw A minF mx off z : ℚ)
    (ht : 16 ≤ t) (hiw : A - 1 ≤ iw) (hA : 5/4 * t ≤ A)
    (hminle : minF ≤ A * z) (hz4 : z ≤ 4)
    (hmx0 : 0 ≤ mx) (hmx : mx ≤ max 0 ((minF - t) / 2 - 2))
    (ho1 : -mx ≤ off) (ho2 : off ≤ mx) :
    0 ≤ (iw - t / max 1 z) / 2 + off / max 1 z
    ∧ (iw - t / max 1 z) / 2 + off / max 1 z + t / max 1 z ≤ iw := by
  have hzc1 : (1:ℚ) ≤ max 1 z := le_max_left _ _
  have hzc0 : (0:ℚ) < max 1 z := lt_of_lt_of_le one_pos hzc1
  have hne : max 1 z ≠ 0 := ne_of_gt hzc0
  have hzc4 : max 1 z ≤ 4 := max_le (by norm_num) hz4
  have hzcz : z ≤ max 1 z := le_max_right _ _
  have hA0 : (0:ℚ) ≤ A := by linarith
  have hiwz1 : (A - 1) * max 1 z ≤ iw * max 1 z :=
    mul_le_mul_of_nonneg_right hiw (le_of_lt hzc0)
  have hAz1 : A * z ≤ A * max 1 z := mul_le_mul_of_nonneg_left hzcz hA0
  have hAz2 : A * 1 ≤ A * max 1 z := mul_le_mul_of_nonneg_left hzc1 hA0
  have hexp : (A - 1) * max 1 z = A * max 1 z - max 1 z := by ring
  have hk1 : minF - 4 ≤ iw * max 1 z := by linarith
  have hk2 : t ≤ iw * max 1 z := by linarith
  have hoff : 2 * off + t ≤ iw * max 1 z ∧ 0 ≤ iw * max 1 z - t + 2 * off := by
    rcases le_or_lt ((minF - t) / 2 - 2) 0 with hc | hc
    · have hmx' : mx = 0 := le_antisymm (by rwa [max_eq_left hc] at hmx) hmx0
      constructor <;> linarith
    · have hmx2 : mx ≤ (minF - t) / 2 - 2 := by rwa [max_eq_right (le_of_lt hc)] at hmx
      constructor <;> linarith
  have e1 : (iw - t / max 1 z) / 2 + off / max 1 z
      = (iw * max 1 z - t + 2 * off) / (2 * max 1 z) := by
    field_simp
    ring
  constructor
  · rw [e1]
    exact div_nonneg hoff.2 (by linarith)
  · have e2 : (iw - t / max 1 z) / 2 + off / max 1 z + t / max 1 z
        = (iw * max 1 z + t + 2 * off) / (2 * max 1 z) := by
      field_simp
      ring
    have e3 : iw * (2 * max 1 z) = 2 * (iw * max 1 z) := by ring
    rw [e2, div_le_iff₀ (by linarith : (0:ℚ) < 2 * max 1 z)]
    linarith [hoff.1]

set_option maxHeartbeats 1000000 in
/-- C4: the pan plan of `create_kenburns_with_ffmpeg` is safe.  The sampled
start and end offsets always lie inside the safe box
`[-max_pan_x, max_pan_x] × [-max_pan_y, max_pan_y]` derived from the smaller
of the two frame footprints, and a degenerate zero-range axis forces the pan
on that axis to zero.  Moreover the rendered crop stays inside the source
plane at every frame: the smoothstep easing maps `[0,1]` into `[0,1]`, and
for every zoom value `z` between the two (post-swap) zoom endpoints and
every easing value `e ∈ [0,1]`, the `zoompan` crop window
`[origin, origin + target/zoom)` built from the eased pan numerator lies
inside `[0, base_w] × [0, base_h]` of the pre-scaled source plane, so no
frame of the (monotonic) zoom trajectory reveals pixels outside the source
image.  `zoompan` clamps its zoom below at 1 (hence `max 1 z`); containment
is proved for zoom endpoints up to 4 (the 2-pixel safety margin absorbs the
even-rounding of the base plane only up to 4× zoom) and target dimensions of
at least 16 pixels, covering the code's 1.05–1.15 zooms and HD targets. -/
theorem kenburns_pan_offsets_safe (imgW imgH targetW targetH zoomStart zoomEnd panMaxPx : ℚ)
    (hiw : 0 < imgW) (hih : 0 < imgH) (htw : 0 < targetW) (hth : 0 < targetH)
    (hzs : 0 < zoomStart) (hze : 0 < zoomEnd)
    (u : ℕ → ℚ) (hu : ∀ n, 0 ≤ u n ∧ u n ≤ 1) :
    (0 ≤ (create_kenburns_plan imgW imgH targetW targetH zoomStart zoomEnd panMaxPx u).maxPanX
      ∧ 0 ≤ (create_kenburns_plan imgW imgH targetW targetH zoomStart zoomEnd panMaxPx u).maxPanY)
    ∧ (-(create_kenburns_plan imgW imgH targetW targetH zoomStart zoomEnd panMaxPx u).maxPanX
        ≤ (create_kenburns_plan imgW imgH targetW targetH zoomStart zoomEnd panMaxPx u).startX
      ∧ (create_kenburns_plan imgW imgH targetW targetH zoomStart zoomEnd panMaxPx u).startX
        ≤ (create_kenburns_plan imgW imgH targetW targetH zoomStart zoomEnd panMaxPx u).maxPanX)
    ∧ (-(create_kenburns_plan imgW imgH targetW targetH zoomStart zoomEnd panMaxPx u).maxPanY
        ≤ (create_kenburns_plan imgW imgH targetW targetH zoomStart zoomEnd panMaxPx u).startY
      ∧ (create_kenburns_plan imgW imgH targetW targetH zoomStart zoomEnd panMaxPx u).startY
        ≤ (create_kenburns_plan imgW imgH targetW targetH zoomStart zoomEnd panMaxPx u).maxPanY)
    ∧ (-(create_kenburns_plan imgW imgH targetW targetH zoomStart zoomEnd panMaxPx u).maxPanX
        ≤ (create_kenburns_plan imgW imgH targetW targetH zoomStart zoomEnd panMaxPx u).endX
      ∧ (create_kenburns_plan imgW imgH targetW targetH zoomStart zoomEnd panMaxPx u).endX
        ≤ (create_kenburns_plan imgW imgH targetW targetH zoomStart zoomEnd panMaxPx u).maxPanX)
    ∧ (-(create_kenburns_plan imgW imgH targetW targetH zoomStart zoomEnd panMaxPx u).maxPanY
        ≤ (create_kenburns_plan imgW imgH targetW targetH zoomStart zoomEnd panMaxPx u).endY
      ∧ (create_kenburns_plan imgW imgH targetW targetH zoomStart zoomEnd panMaxPx u).endY
        ≤ (create_kenburns_plan imgW imgH targetW targetH zoomStart zoomEnd panMaxPx u).maxPanY)
    ∧ ((create_kenburns_plan imgW imgH targetW targetH zoomStart zoomEnd panMaxPx u).maxPanX = 0 →
        (create_kenburns_plan imgW imgH targetW targetH zoomStart zoomEnd panMaxPx u).startX = 0
        ∧ (create_kenburns_plan imgW imgH targetW targetH zoomStart zoomEnd panMaxPx u).endX = 0)
    ∧ ((create_kenburns_plan imgW imgH targetW targetH zoomStart zoomEnd panMaxPx u).maxPanY = 0 →
        (create_kenburns_plan imgW imgH targetW targetH zoomStart zoomEnd panMaxPx u).startY = 0
        ∧ (create_kenburns_plan imgW imgH targetW targetH zoomStart zoomEnd panMaxPx u).endY = 0)
    ∧ (∀ p : ℚ, 0 ≤ p → p ≤ 1 → 0 ≤ ckEase p ∧ ckEase p ≤ 1)
    ∧ (zoomStart ≤ 4 → zoomEnd ≤ 4 → 16 ≤ targetW → 16 ≤ targetH →
       ∀ z e : ℚ,
        min (create_kenburns_plan imgW imgH targetW targetH zoomStart zoomEnd panMaxPx u).zoomStart
          (create_kenburns_plan imgW imgH targetW targetH zoomStart zoomEnd panMaxPx u).zoomEnd ≤ z →
        z ≤ max (create_kenburns_plan imgW imgH targetW targetH zoomStart zoomEnd panMaxPx u).zoomStart
          (create_kenburns_plan imgW imgH targetW targetH zoomStart zoomEnd panMaxPx u).zoomEnd →
        0 ≤ e → e ≤ 1 →
        (0 ≤ ckCropOrigin (ckBaseW imgW imgH targetW targetH) targetW
            ((create_kenburns_plan imgW imgH targetW targetH zoomStart zoomEnd panMaxPx u).startX * (1 - e)
              + (create_kenburns_plan imgW imgH targetW targetH zoomStart zoomEnd panMaxPx u).endX * e)
            (max 1 z)
          ∧ ckCropOrigin (ckBaseW imgW imgH targetW targetH) targetW
            ((create_kenburns_plan imgW imgH targetW targetH zoomStart zoomEnd panMaxPx u).startX * (1 - e)
              + (create_kenburns_plan imgW imgH targetW targetH zoomStart zoomEnd panMaxPx u).endX * e)
            (max 1 z) + targetW / max 1 z ≤ ((ckBaseW imgW imgH targetW targetH : ℤ) : ℚ))
        ∧ (0 ≤ ckCropOrigin (ckBaseH imgW imgH targetW targetH) targetH
            ((create_kenburns_plan imgW imgH targetW targetH zoomStart zoomEnd panMaxPx u).startY * (1 - e)
              + (create_kenburns_plan imgW imgH targetW targetH zoomStart zoomEnd panMaxPx u).endY * e)
            (max 1 z)
          ∧ ckCropOrigin (ckBaseH imgW imgH targetW targetH) targetH
            ((create_kenburns_plan imgW imgH targetW targetH zoomStart zoomEnd panMaxPx u).startY * (1 - e)
              + (create_kenburns_plan imgW imgH targetW targetH zoomStart zoomEnd panMaxPx u).endY * e)
            (max 1 z) + targetH / max 1 z ≤ ((ckBaseH imgW imgH targetW targetH : ℤ) : ℚ))) := by
  have hzs' : 0 < (if u 0 < 1 / 2 then zoomEnd else zoomStart) := by
    split <;> assumption
  have hze' : 0 < (if u 0 < 1 / 2 then zoomStart else zoomEnd) := by
    split <;> assumption
  obtain ⟨hmx, hmy⟩ := ckMaxPan_nonneg imgW imgH targetW targetH panMaxPx _ _
    hiw hih htw hth hzs' hze'
  obtain ⟨h1, h2, h3, h4, h5, h6⟩ := ckOffsets_bounds _ _ hmx hmy u hu
  refine ⟨⟨hmx, hmy⟩, h1, h2, h3, h4, h5, h6,
    fun p hp0 hp1 => ckEase_mem p hp0 hp1, ?_⟩
  intro hzs4 hze4 htw16 hth16 z e hzl hzu he0 he1
  have hps : (create_kenburns_plan imgW imgH targetW targetH zoomStart zoomEnd panMaxPx u).zoomStart
      = (if u 0 < 1 / 2 then zoomEnd else zoomStart) := rfl
  have hpe : (create_kenburns_plan imgW imgH targetW targetH zoomStart zoomEnd panMaxPx u).zoomEnd
      = (if u 0 < 1 / 2 then zoomStart else zoomEnd) := rfl
  rw [hps, hpe] at hzl hzu
  have hzl' := hzl
  have hzu' := hzu
  have hzs'4 : (if u 0 < 1 / 2 then zoomEnd else zoomStart) ≤ 4 := by
    split <;> assumption
  have hze'4 : (if u 0 < 1 / 2 then zoomStart else zoomEnd) ≤ 4 := by
    split <;> assumption
  have hz4 : z ≤ 4 := le_trans hzu' (max_le hzs'4 hze'4)
  have hcovW : targetW ≤ imgW * max (targetW / imgW) (targetH / imgH) := by
    have hdw : imgW * (targetW / imgW) = targetW := by field_simp
    calc targetW = imgW * (targetW / imgW) := hdw.symm
      _ ≤ imgW * max (targetW / imgW) (targetH / imgH) :=
        mul_le_mul_of_nonneg_left (le_max_left _ _) (le_of_lt hiw)
  have hcovH : targetH ≤ imgH * max (targetW / imgW) (targetH / imgH) := by
    have hdh : imgH * (targetH / imgH) = targetH := by field_simp
    calc targetH = imgH * (targetH / imgH) := hdh.symm
      _ ≤ imgH * max (targetW / imgW) (targetH / imgH) :=
        mul_le_mul_of_nonneg_left (le_max_right _ _) (le_of_lt hih)
  have hAW : 5/4 * targetW ≤ imgW * (max (targetW / imgW) (targetH / imgH) * (5/4)) := by
    nlinarith
  have hAH : 5/4 * targetH ≤ imgH * (max (targetW / imgW) (targetH / imgH) * (5/4)) := by
    nlinarith
  have hAW0 : (0:ℚ) ≤ imgW * (max (targetW / imgW) (targetH / imgH) * (5/4)) := by
    nlinarith
  have hAH0 : (0:ℚ) ≤ imgH * (max (targetW / imgW) (targetH / imgH) * (5/4)) := by
    nlinarith
  have hminW : min (imgW * (max (targetW / imgW) (targetH / imgH) * (5/4)
          * (if u 0 < 1 / 2 then zoomEnd else zoomStart)))
        (imgW * (max (targetW / imgW) (targetH / imgH) * (5/4)
          * (if u 0 < 1 / 2 then zoomStart else zoomEnd)))
      ≤ imgW * (max (targetW / imgW) (targetH / imgH) * (5/4)) * z := by
    rcases min_le_iff.1 hzl' with hcase | hcase
    · refine le_trans (min_le_left _ _) ?_
      have hr : imgW * (max (targetW / imgW) (targetH / imgH) * (5/4)
            * (if u 0 < 1 / 2 then zoomEnd else zoomStart))
          = imgW * (max (targetW / imgW) (targetH / imgH) * (5/4))
            * (if u 0 < 1 / 2 then zoomEnd else zoomStart) := by ring
      rw [hr]
      exact mul_le_mul_of_nonneg_left hcase hAW0
    · refine le_trans (min_le_right _ _) ?_
      have hr : imgW * (max (targetW / imgW) (targetH / imgH) * (5/4)
            * (if u 0 < 1 / 2 then zoomStart else zoomEnd))
          = imgW * (max (targetW / imgW) (targetH / imgH) * (5/4))
            * (if u 0 < 1 / 2 then zoomStart else zoomEnd) := by ring
      rw [hr]
      exact mul_le_mul_of_nonneg_left hcase hAW0
  have hminH : min (imgH * (max (targetW / imgW) (targetH / imgH) * (5/4)
          * (if u 0 < 1 / 2 then zoomEnd else zoomStart)))
        (imgH * (max (targetW / imgW) (targetH / imgH) * (5/4)
          * (if u 0 < 1 / 2 then zoomStart else zoomEnd)))
      ≤ imgH * (max (targetW / imgW) (targetH / imgH) * (5/4)) * z := by
    rcases min_le_iff.1 hzl' with hcase | hcase
    · refine le_trans (min_le_left _ _) ?_
      have hr : imgH * (max (targetW / imgW) (targetH / imgH) * (5/4)
            * (if u 0 < 1 / 2 then zoomEnd else zoomStart))
          = imgH * (max (targetW / imgW) (targetH / imgH) * (5/4))
            * (if u 0 < 1 / 2 then zoomEnd else zoomStart) := by ring
      rw [hr]
      exact mul_le_mul_of_nonneg_left hcase hAH0
    · refine le_trans (min_le_right _ _) ?_
      have hr : imgH * (max (targetW / imgW) (targetH / imgH) * (5/4)
            * (if u 0 < 1 / 2 then zoomStart else zoomEnd))
          = imgH * (max (targetW / imgW) (targetH / imgH) * (5/4))
            * (if u 0 < 1 / 2 then zoomStart else zoomEnd) := by ring
      rw [hr]
      exact mul_le_mul_of_nonneg_left hcase hAH0
  have hmxle := ckMaxPan_le imgW imgH targetW targetH panMaxPx
    (if u 0 < 1 / 2 then zoomEnd else zoomStart) (if u 0 < 1 / 2 then zoomStart else zoomEnd)
  have hlerpW := lerp_mem _ _ _ e h1.1 h1.2 h3.1 h3.2 he0 he1
  have hlerpH := lerp_mem _ _ _ e h2.1 h2.2 h4.1 h4.2 he0 he1
  have resW := crop_axis_safe targetW ((ckBaseW imgW imgH targetW targetH : ℤ) : ℚ)
    (imgW * (max (targetW / imgW) (targetH / imgH) * (5/4))) _ _ _ z
    htw16 (ckBaseW_ge imgW imgH targetW targetH) hAW hminW hz4 hmx hmxle.1
    hlerpW.1 hlerpW.2
  have resH := crop_axis_safe targetH ((ckBaseH imgW imgH targetW targetH : ℤ) : ℚ)
    (imgH * (max (targetW / imgW) (targetH / imgH) * (5/4))) _ _ _ z
    hth16 (ckBaseH_ge imgW imgH targetW targetH) hAH hminH hz4 hmy hmxle.2
    hlerpH.1 hlerpH.2
  exact ⟨⟨resW.1, resW.2⟩, resH.1, resH.2⟩

/-- Closed witness for `kenburns_pan_offsets_safe` at a 1024×1024 image,
1920×1080 target, zooms 1.05→1.15 and the constant draw 1/2, exercising the
box membership, the easing range and the per-frame crop containment. -/
theorem kenburns_pan_offsets_safe_witness :
    0 ≤ (create_kenburns_plan 1024 1024 1920 1080 (21/20) (23/20) 60
        (fun _ => 1/2)).maxPanX
    ∧ (create_kenburns_plan 1024 1024 1920 1080 (21/20) (23/20) 60
        (fun _ => 1/2)).startX
      ≤ (create_kenburns_plan 1024 1024 1920 1080 (21/20) (23/20) 60
        (fun _ => 1/2)).maxPanX
    ∧ (0 ≤ ckEase (1/2) ∧ ckEase (1/2) ≤ 1)
    ∧ 0 ≤ ckCropOrigin (ckBaseW 1024 1024 1920 1080) 1920
        ((create_kenburns_plan 1024 1024 1920 1080 (21/20) (23/20) 60
            (fun _ => 1/2)).startX * (1 - 0)
          + (create_kenburns_plan 1024 1024 1920 1080 (21/20) (23/20) 60
            (fun _ => 1/2)).endX * 0)
        (max 1 (21/20)) :=
  ⟨(kenburns_pan_offsets_safe 1024 1024 1920 1080 (21/20) (23/20) 60
      (by norm_num) (by norm_num) (by norm_num) (by norm_num) (by norm_num) (by norm_num)
      (fun _ => 1/2) (fun _ => ⟨by norm_num, by norm_num⟩)).1.1,
   (kenburns_pan_offsets_safe 1024 1024 1920 1080 (21/20) (23/20) 60
      (by norm_num) (by norm_num) (by norm_num) (by norm_num) (by norm_num) (by norm_num)
      (fun _ => 1/2) (fun _ => ⟨by norm_num, by norm_num⟩)).2.1.2,
   (kenburns_pan_offsets_safe 1024 1024 1920 1080 (21/20) (23/20) 60
      (by norm_num) (by norm_num) (by norm_num) (by norm_num) (by norm_num) (by norm_num)
      (fun _ => 1/2) (fun _ => ⟨by norm_num, by norm_num⟩)).2.2.2.2.2.2.2.1
      (1/2) (by norm_num) (by norm_num),
   ((kenburns_pan_offsets_safe 1024 1024 1920 1080 (21/20) (23/20) 60
      (by norm_num) (by norm_num) (by norm_num) (by norm_num) (by norm_num) (by norm_num)
      (fun _ => 1/2) (fun _ => ⟨by norm_num, by norm_num⟩)).2.2.2.2.2.2.2.2
      (by norm_num) (by norm_num) (by norm_num) (by norm_num) (21/20) 0
      (by norm_num [create_kenburns_plan]) (by norm_num [create_kenburns_plan])
      (by norm_num) (by norm_num)).1.1⟩

/-- C7 amended: the probing fallback chain holds — a positive stream-declared
`nb_frames` wins, otherwise a positive counted decoded frame total, otherwise
0; container duration defaults to 0 (never negative, never unknown); a clip
with no positive probed frame count falls back to `round(duration * fps)`;
but no fatal error is surfaced: `combine_clips_with_fades` returns `ok` on
every non-empty input, silently planning around zero-duration clips. -/
theorem probe_fallback_chain :
    (∀ p : ProbeData, ∀ v, p.streamNbFrames = some v → 0 < v → probe_nb_frames p = v)
    ∧ (∀ p : ProbeData, ∀ w,
        (p.streamNbFrames = none ∨ ∃ v, p.streamNbFrames = some v ∧ v ≤ 0) →
        p.countedFrames = some w → 0 < w → probe_nb_frames p = w)
    ∧ (∀ p : ProbeData,
        (p.streamNbFrames = none ∨ ∃ v, p.streamNbFrames = some v ∧ v ≤ 0) →
        (p.countedFrames = none ∨ ∃ w, p.countedFrames = some w ∧ w ≤ 0) →
        probe_nb_frames p = 0)
    ∧ (∀ p : ProbeData, 0 ≤ probe_duration_seconds p)
    ∧ (∀ (nb : ℤ) (dur : ℚ) (fps : ℕ), nb ≤ 0 → effFrames nb dur fps = pyRound (dur * fps))
    ∧ (∀ (p0 : String) (rest : List String) (probes : List ProbeData) (fade : ℚ)
        (fps : ℕ) (ov : Option (List ℤ)),
        ∃ r, combine_clips_with_fades (p0 :: rest) probes fade fps ov = .ok r) := by
  refine ⟨?_, ?_, ?_, ?_, ?_, ?_⟩
  · intro p v h hv
    simp [probe_nb_frames, h, hv]
  · intro p w hs hc hw
    rcases hs with h | ⟨v, h, hv⟩
    · simp [probe_nb_frames, probeCountedFrames, h, hc, hw]
    · simp [probe_nb_frames, probeCountedFrames, h, hc, hw, not_lt.2 hv]
  · intro p hs hc
    rcases hs with h | ⟨v, h, hv⟩ <;> rcases hc with h2 | ⟨w, h2, hw⟩ <;>
      simp_all [probe_nb_frames, probeCountedFrames, not_lt.2]
  · intro p
    unfold probe_duration_seconds
    split
    · exact le_max_left 0 _
    · exact le_refl 0
  · intro nb dur fps h
    unfold effFrames
    rw [if_neg (not_lt.2 h)]
  · intro p0 rest probes fade fps ov
    unfold combine_clips_with_fades
    dsimp only
    split
    · exact ⟨_, rfl⟩
    · split
      · exact ⟨_, rfl⟩
      · exact ⟨_, rfl⟩

/-- Closed witness for `probe_fallback_chain`. -/
theorem probe_fallback_chain_witness :
    probe_nb_frames ⟨some 7, some 3, none⟩ = 7
    ∧ probe_nb_frames ⟨some 0, some 3, none⟩ = 3
    ∧ probe_nb_frames ⟨none, none, none⟩ = 0
    ∧ 0 ≤ probe_duration_seconds ⟨none, none, some (5/2)⟩
    ∧ effFrames 0 (3/2) 60 = pyRound ((3/2) * 60)
    ∧ ∃ r, combine_clips_with_fades ["x.mp4"] [] 1 30 none = .ok r :=
  ⟨probe_fallback_chain.1 _ 7 rfl (by norm_num),
   probe_fallback_chain.2.1 _ 3 (Or.inr ⟨0, rfl, le_refl 0⟩) rfl (by norm_num),
   probe_fallback_chain.2.2.1 _ (Or.inl rfl) (Or.inl rfl),
   probe_fallback_chain.2.2.2.1 _,
   probe_fallback_chain.2.2.2.2.1 0 (3/2) 60 (le_refl 0),
   probe_fallback_chain.2.2.2.2.2 "x.mp4" [] [] 1 30 none⟩

/-- C2 amended: the planned segments total `sum(n) - sum(f)` whenever, in
addition to `1 <= f_i <= min(n_i, n_{i+1})`, every interior clip j is long
enough to host both adjoining fades (`f_{j-1} + f_j <= n_j`); for two clips
the interior condition is vacuous, so `frames(A) + frames(B) - f` holds for
every fade `f <= min(frames(A), frames(B))`. -/
theorem combined_total_frames_of_long_interiors (effs fades : List ℤ)
    (hN : 2 ≤ effs.length) (hlen : fades.length = effs.length - 1)
    (hf : ∀ i, i < effs.length - 1 → 1 ≤ fades.getD i 0 ∧ fades.getD i 0 ≤ effs.getD i 0
      ∧ fades.getD i 0 ≤ effs.getD (i+1) 0)
    (hmid : ∀ j, 0 < j → j < effs.length - 1 →
      fades.getD (j-1) 0 + fades.getD j 0 ≤ effs.getD j 0) :
    totalFrames (planSegments effs fades) = effs.sum - fades.sum := by
  obtain ⟨M, hM⟩ : ∃ M, effs.length = M + 2 := ⟨effs.length - 2, by omega⟩
  have hL1 : effs.length - 1 = M + 1 := by omega
  have hlast_f : fades.getLastD 0 = fades.getD M 0 := by
    rw [getLastD_eq_getD, show fades.length - 1 = M from by omega]
  have hlast_n : effs.getLastD 0 = effs.getD (M+1) 0 := by
    rw [getLastD_eq_getD, show effs.length - 1 = M + 1 from by omega]
  unfold planSegments
  dsimp only
  rw [hL1, hlast_f, hlast_n, totalFrames_append, totalFrames_append, totalFrames_flatMap,
    sum_map_range]
  have hpre : totalFrames (if 0 < 0 ⊔ (effs.getD 0 0 - fades.getD 0 0) then
      [Seg.cut 0 0 (0 ⊔ (effs.getD 0 0 - fades.getD 0 0))] else [])
      = effs.getD 0 0 - fades.getD 0 0 := by
    have h0 := hf 0 (by omega)
    rw [max_eq_right (by linarith [h0.2.1] : (0:ℤ) ≤ effs.getD 0 0 - fades.getD 0 0)]
    by_cases hc : (0:ℤ) < effs.getD 0 0 - fades.getD 0 0
    · rw [if_pos hc]; simp [totalFrames, segFrames]
    · rw [if_neg hc]
      simp only [totalFrames, List.map_nil, List.sum_nil]
      linarith [h0.2.1]
  have hpost : totalFrames (if 0 < 0 ⊔ (effs.getD (M + 1) 0 - fades.getD M 0) then
      [Seg.cut (M + 1) (fades.getD M 0) (0 ⊔ (effs.getD (M + 1) 0 - fades.getD M 0))] else [])
      = effs.getD (M + 1) 0 - fades.getD M 0 := by
    have hM0 := hf M (by omega)
    rw [max_eq_right (by linarith [hM0.2.2] : (0:ℤ) ≤ effs.getD (M + 1) 0 - fades.getD M 0)]
    by_cases hc : (0:ℤ) < effs.getD (M + 1) 0 - fades.getD M 0
    · rw [if_pos hc]; simp [totalFrames, segFrames]
    · rw [if_neg hc]
      simp only [totalFrames, List.map_nil, List.sum_nil]
      linarith [hM0.2.2]
  have hterm : ∀ i ∈ Finset.range (M + 1),
      totalFrames ((if 0 < fades.getD i 0 then
          [Seg.transition i (0 ⊔ (effs.getD i 0 - fades.getD i 0)) (fades.getD i 0)]
        else []) ++
        if 0 < i + 1 ∧ i + 1 < M + 1 then
          if 0 < 0 ⊔ (effs.getD (i + 1) 0 - fades.getD i 0 - fades.getD (i + 1) 0) then
            [Seg.cut (i + 1) (0 ⊔ fades.getD i 0)
                (0 ⊔ (effs.getD (i + 1) 0 - fades.getD i 0 - fades.getD (i + 1) 0))]
          else []
        else [])
      = fades.getD i 0 +
        (if i < M then effs.getD (i + 1) 0 - fades.getD i 0 - fades.getD (i + 1) 0 else 0) := by
    intro i hi
    have hiM : i ≤ M := by have := Finset.mem_range.1 hi; omega
    have hfi := hf i (by omega)
    rw [totalFrames_append]
    rw [show totalFrames (if 0 < fades.getD i 0 then
        [Seg.transition i (0 ⊔ (effs.getD i 0 - fades.getD i 0)) (fades.getD i 0)] else [])
        = fades.getD i 0 from by
      rw [if_pos (by linarith [hfi.1])]; simp [totalFrames, segFrames]]
    by_cases him : i < M
    · have hmi := hmid (i + 1) (Nat.succ_pos i) (by omega)
      rw [show i + 1 - 1 = i from by omega] at hmi
      have hnn : (0:ℤ) ≤ effs.getD (i + 1) 0 - fades.getD i 0 - fades.getD (i + 1) 0 := by
        linarith
      rw [if_pos (show 0 < i + 1 ∧ i + 1 < M + 1 from ⟨Nat.succ_pos i, by omega⟩)]
      rw [max_eq_right hnn]
      by_cases hc : (0:ℤ) < effs.getD (i + 1) 0 - fades.getD i 0 - fades.getD (i + 1) 0
      · rw [if_pos hc]; simp [totalFrames, segFrames, him]
      · rw [if_neg hc, if_pos him]
        simp only [totalFrames, List.map_nil, List.sum_nil]
        linarith
    · rw [if_neg (show ¬(0 < i + 1 ∧ i + 1 < M + 1) from by omega)]
      simp [totalFrames, him]
  rw [hpre, hpost, Finset.sum_congr rfl hterm, Finset.sum_add_distrib]
  have hite : (∑ i ∈ Finset.range (M + 1),
      if i < M then effs.getD (i + 1) 0 - fades.getD i 0 - fades.getD (i + 1) 0 else 0)
      = ∑ i ∈ Finset.range M, (effs.getD (i + 1) 0 - fades.getD i 0 - fades.getD (i + 1) 0) := by
    rw [Finset.sum_range_succ]
    simp only [lt_irrefl, if_false, add_zero]
    exact Finset.sum_congr rfl fun i hi => if_pos (Finset.mem_range.1 hi)
  rw [hite, Finset.sum_sub_distrib, Finset.sum_sub_distrib]
  have eS1 : ∑ i ∈ Finset.range (M + 1), fades.getD i 0
      = ∑ i ∈ Finset.range M, fades.getD i 0 + fades.getD M 0 := Finset.sum_range_succ _ _
  have eS2 : ∑ i ∈ Finset.range (M + 1), fades.getD i 0
      = (∑ i ∈ Finset.range M, fades.getD (i + 1) 0) + fades.getD 0 0 :=
    Finset.sum_range_succ' _ _
  have eN : effs.sum = ((∑ i ∈ Finset.range M, effs.getD (i + 1) 0) + effs.getD 0 0)
      + effs.getD (M + 1) 0 := by
    rw [list_sum_getD, hM, Finset.sum_range_succ, Finset.sum_range_succ']
  have eF : fades.sum = ∑ i ∈ Finset.range (M + 1), fades.getD i 0 := by
    rw [list_sum_getD, hlen, hL1]
  rw [eN, eF]
  linarith [eS1, eS2]

/-- Closed witness for `combined_total_frames_of_long_interiors`: two clips
of 100 frames with a 30-frame fade total 170 frames. -/
theorem combined_total_frames_of_long_interiors_witness :
    totalFrames (planSegments [100, 100] [30]) = [100, 100].sum - [30].sum :=
  combined_total_frames_of_long_interiors [100, 100] [30] (by norm_num) (by norm_num)
    (fun i hi => by
      have h0 : i = 0 := by simpa using hi
      subst h0
      norm_num)
    (fun j h1 h2 => absurd h2 (by simp at h2 ⊢; omega))

/-- An empty run spans nothing and leaves the state unchanged. -/
theorem EventsSpan.nil (p : ℚ) : EventsSpan p [] p :=
  ⟨le_refl p, List.chain'_nil, by simp, rfl, by simp⟩

/-- Event-run invariants compose over concatenation. -/
theorem EventsSpan.append {p q r : ℚ} {es fs : List CapEvent}
    (h1 : EventsSpan p es q) (h2 : EventsSpan q fs r) : EventsSpan p (es ++ fs) r := by
  obtain ⟨hpq, hch1, hb1, hq1, hh1⟩ := h1
  obtain ⟨hqr, hch2, hb2, hq2, hh2⟩ := h2
  refine ⟨le_trans hpq hqr, ?_, ?_, ?_, ?_⟩
  · refine hch1.append hch2 ?_
    intro x hx y hy
    have hxq : q = x.t1 := by rw [hq1, hx]; rfl
    have hyf : y ∈ fs := List.mem_of_mem_head? hy
    have := hb2 y hyf
    constructor
    · rw [← hxq]; exact this.1
    · intro hne
      rw [← hxq]
      exact (hh2 y hy hne).symm
  · intro e he
    rcases List.mem_append.1 he with h | h
    · exact ⟨(hb1 e h).1, (hb1 e h).2.1, le_trans (hb1 e h).2.2 hqr⟩
    · exact ⟨le_trans hpq (hb2 e h).1, (hb2 e h).2.1, (hb2 e h).2.2⟩
  · rcases fs.eq_nil_or_concat with rfl | ⟨fs', f, rfl⟩
    · have : r = q := by rw [hq2]; rfl
      rw [this, hq1]
      cases es <;> simp
    · rw [List.concat_eq_append] at hq2 ⊢
      rw [← List.append_assoc]
      rw [List.getLast?_concat] at hq2 ⊢
      simpa using hq2
  · intro e he hne
    cases es with
    | nil =>
      have hqp : q = p := by rw [hq1]; rfl
      simp only [List.nil_append] at he
      rw [hh2 e he hne, hqp]
    | cons a es' =>
      simp only [List.cons_append, List.head?_cons, Option.mem_some_iff] at he
      exact hh1 e (by simp [← he]) hne

/-- The display start never precedes the threaded `prev_end`. -/
theorem stepStart_ge (words : List TWord) (ws wi : ℕ) (p : ℚ) :
    p ≤ stepStart words ws wi p := by
  unfold stepStart
  split
  · exact le_max_left _ _
  · exact le_refl p

/-- A non-initial word of a window starts exactly at `prev_end`. -/
theorem stepStart_of_ne (words : List TWord) (ws wi : ℕ) (p : ℚ) (h : wi ≠ ws) :
    stepStart words ws wi p = p := by
  unfold stepStart
  rw [if_neg h]

/-- The clamped display end never precedes the display start. -/
theorem stepEnd_ge (total st ns : ℚ) : st ≤ stepEnd total st ns := by
  unfold stepEnd
  dsimp only
  split
  · exact le_refl st
  · exact le_of_not_lt (by assumption)

/-- One window run satisfies the span invariant, and every event it emits
carries that window. -/
theorem processWords_span (words : List TWord) (total : ℚ) (sEnd : ℕ) (nf? : Option ℕ)
    (ws we : ℕ) : ∀ (l : List ℕ) (p : ℚ),
    EventsSpan p (processWords words total sEnd nf? ws we l p).1
      (processWords words total sEnd nf? ws we l p).2
    ∧ ∀ e ∈ (processWords words total sEnd nf? ws we l p).1,
        e.winStart = ws ∧ e.winEnd = we := by
  intro l
  induction l with
  | nil =>
    intro p
    exact ⟨EventsSpan.nil p, by simp [processWords]⟩
  | cons wi rest ih =>
    intro p
    unfold processWords
    dsimp only
    by_cases hd : stepEnd total (stepStart words ws wi p)
        (stepNextStart words total sEnd nf? we wi) - stepStart words ws wi p ≤ 0
    · have hs : stepWord words total sEnd nf? ws we wi p = (none, p) := by
        unfold stepWord
        dsimp only
        rw [if_pos hd]
      rw [hs]
      exact ih p
    · have hs : stepWord words total sEnd nf? ws we wi p =
          (some ⟨ws, we, wi, stepStart words ws wi p,
            stepEnd total (stepStart words ws wi p) (stepNextStart words total sEnd nf? we wi)⟩,
           stepEnd total (stepStart words ws wi p) (stepNextStart words total sEnd nf? we wi)) := by
        unfold stepWord
        dsimp only
        rw [if_neg hd]
      rw [hs]
      dsimp only
      obtain ⟨ihspan, ihwin⟩ := ih (stepEnd total (stepStart words ws wi p)
        (stepNextStart words total sEnd nf? we wi))
      have hf1 : p ≤ stepStart words ws wi p := stepStart_ge words ws wi p
      have hf2 : stepStart words ws wi p < stepEnd total (stepStart words ws wi p)
          (stepNextStart words total sEnd nf? we wi) := by
        have h1 := stepEnd_ge total (stepStart words ws wi p)
          (stepNextStart words total sEnd nf? we wi)
        have h2 := not_le.1 hd
        linarith
      constructor
      · have h1 : EventsSpan p [⟨ws, we, wi, stepStart words ws wi p,
            stepEnd total (stepStart words ws wi p)
              (stepNextStart words total sEnd nf? we wi)⟩]
            (stepEnd total (stepStart words ws wi p)
              (stepNextStart words total sEnd nf? we wi)) := by
          refine ⟨le_trans hf1 (le_of_lt hf2), List.chain'_singleton _, ?_, rfl, ?_⟩
          · intro e he
            simp only [List.mem_singleton] at he
            subst he
            exact ⟨hf1, hf2, le_refl _⟩
          · intro e he hne
            simp only [List.head?_cons, Option.mem_some_iff] at he
            subst he
            exact stepStart_of_ne words ws wi p hne
        have := EventsSpan.append h1 ihspan
        simpa using this
      · intro e he
        rcases List.mem_cons.1 he with rfl | h
        · exact ⟨rfl, rfl⟩
        · exact ihwin e h

/-- The window walk of one sentence satisfies the span invariant. -/
theorem processWindows_span (words : List TWord) (total : ℚ) (wsize sEnd : ℕ)
    (nf? : Option ℕ) : ∀ (fuel idx : ℕ) (p : ℚ),
    EventsSpan p (processWindows words total wsize sEnd nf? fuel idx p).1
      (processWindows words total wsize sEnd nf? fuel idx p).2 := by
  intro fuel
  induction fuel with
  | zero => intro idx p; exact EventsSpan.nil p
  | succ n ih =>
    intro idx p
    unfold processWindows
    dsimp only
    split
    · exact EventsSpan.append (processWords_span words total sEnd nf? idx
        (min sEnd (idx + wsize)) (List.range' idx (min sEnd (idx + wsize) - idx)) p).1
        (ih (min sEnd (idx + wsize)) _)
    · exact EventsSpan.nil p

/-- The sentence walk satisfies the span invariant. -/
theorem processSentences_span (words : List TWord) (total : ℚ) (wsize : ℕ) :
    ∀ (bs : List (ℕ × ℕ)) (p : ℚ),
    EventsSpan p (processSentences words total wsize bs p).1
      (processSentences words total wsize bs p).2 := by
  intro bs
  induction bs with
  | nil => intro p; exact EventsSpan.nil p
  | cons b rest ih =>
    intro p
    unfold processSentences
    dsimp only
    exact EventsSpan.append (processWindows_span words total wsize b.2
      (rest.head?.map Prod.fst) b.2 b.1 p) (ih _)

/-- Highlight indices emitted from a window index range stay inside the
range and are strictly increasing. -/
theorem processWords_idx (words : List TWord) (total : ℚ) (sEnd : ℕ) (nf? : Option ℕ)
    (ws we : ℕ) : ∀ (k a : ℕ) (p : ℚ),
    (∀ e ∈ (processWords words total sEnd nf? ws we (List.range' a k) p).1,
      a ≤ e.hl ∧ e.hl < a + k)
    ∧ ((processWords words total sEnd nf? ws we (List.range' a k) p).1.map
        CapEvent.hl).Pairwise (· < ·) := by
  intro k
  induction k with
  | zero =>
    intro a p
    simp [processWords]
  | succ n ih =>
    intro a p
    rw [List.range'_succ]
    unfold processWords
    dsimp only
    by_cases hd : stepEnd total (stepStart words ws a p)
        (stepNextStart words total sEnd nf? we a) - stepStart words ws a p ≤ 0
    · have hs : stepWord words total sEnd nf? ws we a p = (none, p) := by
        unfold stepWord
        dsimp only
        rw [if_pos hd]
      rw [hs]
      refine ⟨fun e he => ?_, (ih (a + 1) p).2⟩
      have := (ih (a + 1) p).1 e he
      omega
    · have hs : stepWord words total sEnd nf? ws we a p =
          (some ⟨ws, we, a, stepStart words ws a p,
            stepEnd total (stepStart words ws a p) (stepNextStart words total sEnd nf? we a)⟩,
           stepEnd total (stepStart words ws a p) (stepNextStart words total sEnd nf? we a)) := by
        unfold stepWord
        dsimp only
        rw [if_neg hd]
      rw [hs]
      dsimp only
      obtain ⟨ihb, ihp⟩ := ih (a + 1) (stepEnd total (stepStart words ws a p)
        (stepNextStart words total sEnd nf? we a))
      constructor
      · intro e he
        rcases List.mem_cons.1 he with rfl | h
        · dsimp only
          omega
        · have := ihb e h
          omega
      · rw [List.map_cons]
        rw [List.pairwise_cons]
        dsimp only
        refine ⟨fun b hb => ?_, ihp⟩
        obtain ⟨e, he, rfl⟩ := List.mem_map.1 hb
        have := ihb e he
        omega

/-- Events of one sentence walk sit in windows of bounded size inside the
sentence, with strictly increasing highlight indices. -/
theorem processWindows_idx (words : List TWord) (total : ℚ) (wsize sEnd : ℕ)
    (nf? : Option ℕ) : ∀ (fuel idx : ℕ) (p : ℚ),
    (∀ e ∈ (processWindows words total wsize sEnd nf? fuel idx p).1,
      idx ≤ e.winStart ∧ e.winStart ≤ e.hl ∧ e.hl < e.winEnd
      ∧ e.winEnd ≤ e.winStart + wsize ∧ e.winEnd ≤ sEnd)
    ∧ ((processWindows words total wsize sEnd nf? fuel idx p).1.map
        CapEvent.hl).Pairwise (· < ·) := by
  intro fuel
  induction fuel with
  | zero => intro idx p; simp [processWindows]
  | succ n ih =>
    intro idx p
    unfold processWindows
    dsimp only
    split
    · have hlt : idx < sEnd := by assumption
      have hwe : idx ≤ min sEnd (idx + wsize) := le_min (le_of_lt hlt) (Nat.le_add_right _ _)
      obtain ⟨hw1, hw2⟩ := processWords_span words total sEnd nf? idx
        (min sEnd (idx + wsize)) (List.range' idx (min sEnd (idx + wsize) - idx)) p
      obtain ⟨hb1, hp1⟩ := processWords_idx words total sEnd nf? idx
        (min sEnd (idx + wsize)) (min sEnd (idx + wsize) - idx) idx p
      obtain ⟨hb2, hp2⟩ := ih (min sEnd (idx + wsize)) _
      constructor
      · intro e he
        rcases List.mem_append.1 he with h | h
        · obtain ⟨hws, hwe'⟩ := hw2 e h
          obtain ⟨h1, h2⟩ := hb1 e h
          rw [hws, hwe']
          refine ⟨le_refl idx, h1, ?_, ?_, ?_⟩
          · omega
          · have : min sEnd (idx + wsize) ≤ idx + wsize := min_le_right _ _
            omega
          · exact min_le_left _ _
        · have := hb2 e h
          refine ⟨le_trans hwe this.1, this.2.1, this.2.2.1, this.2.2.2.1, this.2.2.2.2⟩
      · rw [List.map_append]
        rw [List.pairwise_append]
        refine ⟨hp1, hp2, ?_⟩
        intro x hx y hy
        obtain ⟨e, he, rfl⟩ := List.mem_map.1 hx
        obtain ⟨f, hf, rfl⟩ := List.mem_map.1 hy
        obtain ⟨-, h2⟩ := hb1 e he
        have h3 := (hb2 f hf).1
        have h4 := (hb2 f hf).2.1
        omega
    · simp [processWindows]

/-- Events of the full walk sit in a window of some sentence, with globally
strictly increasing highlight indices. -/
theorem processSentences_idx (words : List TWord) (total : ℚ) (wsize : ℕ) :
    ∀ (bs : List (ℕ × ℕ)) (p : ℚ), bs.Pairwise (fun a b => a.2 ≤ b.1) →
    (∀ e ∈ (processSentences words total wsize bs p).1,
      ∃ b ∈ bs, b.1 ≤ e.winStart ∧ e.winStart ≤ e.hl ∧ e.hl < e.winEnd
        ∧ e.winEnd ≤ e.winStart + wsize ∧ e.winEnd ≤ b.2)
    ∧ ((processSentences words total wsize bs p).1.map CapEvent.hl).Pairwise (· < ·) := by
  intro bs
  induction bs with
  | nil => intro p _; simp [processSentences]
  | cons b rest ih =>
    intro p hp
    obtain ⟨hcross, hrest⟩ := List.pairwise_cons.1 hp
    unfold processSentences
    dsimp only
    obtain ⟨hb1, hp1⟩ := processWindows_idx words total wsize b.2
      (rest.head?.map Prod.fst) b.2 b.1 p
    obtain ⟨hb2, hp2⟩ := ih _ hrest
    constructor
    · intro e he
      rcases List.mem_append.1 he with h | h
      · obtain ⟨h1, h2, h3, h4, h5⟩ := hb1 e h
        exact ⟨b, List.mem_cons_self b rest, h1, h2, h3, h4, h5⟩
      · obtain ⟨c, hc, h1, h2, h3, h4, h5⟩ := hb2 e h
        exact ⟨c, List.mem_cons_of_mem b hc, h1, h2, h3, h4, h5⟩
    · rw [List.map_append, List.pairwise_append]
      refine ⟨hp1, hp2, ?_⟩
      intro x hx y hy
      obtain ⟨e, he, rfl⟩ := List.mem_map.1 hx
      obtain ⟨f, hf, rfl⟩ := List.mem_map.1 hy
      obtain ⟨-, -, h3, -, h5⟩ := hb1 e he
      obtain ⟨c, hc, hc1, hc2, -, -, -⟩ := hb2 f hf
      have := hcross c hc
      omega

/-- Sentence boundaries emitted from threading state `s` start at or after
`s` and are non-empty. -/
theorem sentenceBoundariesAux_lb (n : ℕ) :
    ∀ (l : List TWord) (i s : ℕ), s ≤ i →
    ∀ b ∈ sentenceBoundariesAux n l i s, s ≤ b.1 ∧ b.1 < b.2 := by
  intro l
  induction l with
  | nil =>
    intro i s hsi b hb
    unfold sentenceBoundariesAux at hb
    split at hb
    · simp only [List.mem_singleton] at hb
      subst hb
      exact ⟨le_refl s, by assumption⟩
    · simp at hb
  | cons w rest ih =>
    intro i s hsi b hb
    unfold sentenceBoundariesAux at hb
    split at hb
    · rcases List.mem_append.1 hb with h | h
      · split at h
        · simp only [List.mem_singleton] at h
          subst h
          exact ⟨le_refl s, by omega⟩
        · simp at h
      · have := ih (i + 1) (i + 1) (le_refl _) b h
        omega
    · exact ih (i + 1) s (by omega) b hb

/-- Sentence boundaries are emitted in order: each ends no later than the
next begins. -/
theorem sentenceBoundariesAux_pairwise (n : ℕ) :
    ∀ (l : List TWord) (i s : ℕ), s ≤ i →
    (sentenceBoundariesAux n l i s).Pairwise (fun a b => a.2 ≤ b.1) := by
  intro l
  induction l with
  | nil =>
    intro i s hsi
    unfold sentenceBoundariesAux
    split
    · exact List.pairwise_singleton _ _
    · exact List.Pairwise.nil
  | cons w rest ih =>
    intro i s hsi
    unfold sentenceBoundariesAux
    split
    · rw [List.pairwise_append]
      refine ⟨?_, ih (i + 1) (i + 1) (le_refl _), ?_⟩
      · split
        · exact List.pairwise_singleton _ _
        · exact List.Pairwise.nil
      · intro a ha b hb
        have hlb := sentenceBoundariesAux_lb n rest (i + 1) (i + 1) (le_refl _) b hb
        split at ha
        · simp only [List.mem_singleton] at ha
          subst ha
          omega
        · simp at ha
    · exact ih (i + 1) s (by omega)

/-- The sentence split of a word list is ordered. -/
theorem sentenceBoundaries_pairwise (ws : List TWord) :
    (sentenceBoundaries ws).Pairwise (fun a b => a.2 ≤ b.1) :=
  sentenceBoundariesAux_pairwise ws.length ws 0 0 (le_refl 0)

/-- C1 amended: caption events are monotone and never overlap — each event's
end is at most the next event's start, with equality whenever the next event
highlights a non-initial word of its window — and every emitted event has a
non-empty span starting at or after 0; but the tiling of `[0, total)` is
only piecewise (gaps can occur at window boundaries and the final end can
fall short of the total duration, see the counterexample). -/
theorem caption_events_monotone_no_overlap (words : List TWord) (total : ℚ) (wsize : ℕ) :
    List.Chain' (fun a b => a.t1 ≤ b.t0 ∧ (b.hl ≠ b.winStart → a.t1 = b.t0))
      (buildEvents words total wsize)
    ∧ ∀ e ∈ buildEvents words total wsize, 0 ≤ e.t0 ∧ e.t0 < e.t1 := by
  obtain ⟨-, hch, hb, -, -⟩ := processSentences_span words total (max 1 wsize)
    (sentenceBoundaries words) 0
  exact ⟨hch, fun e he => ⟨(hb e he).1, (hb e he).2.1⟩⟩

/-- C9 amended: every caption window holds at most `max 1 window_size` words
and never crosses a sentence boundary, the highlighted word always lies in
the displayed window, and highlight indices are strictly increasing (so each
word receives at most one highlight event — a word whose computed span is
empty is skipped); the 7-word sentence with window size 5 does yield windows
`[0,5)` then `[5,7)` with one highlight event per word, 7 in total. -/
theorem caption_window_structure :
    (∀ (words : List TWord) (total : ℚ) (wsize : ℕ), ∀ e ∈ buildEvents words total wsize,
      e.winStart ≤ e.hl ∧ e.hl < e.winEnd ∧ e.winEnd ≤ e.winStart + max 1 wsize
      ∧ ∃ b ∈ sentenceBoundaries words, b.1 ≤ e.winStart ∧ e.winEnd ≤ b.2)
    ∧ (∀ (words : List TWord) (total : ℚ) (wsize : ℕ),
      ((buildEvents words total wsize).map CapEvent.hl).Pairwise (· < ·))
    ∧ (buildEvents [⟨"a", 0, 1/2⟩, ⟨"b", 1, 3/2⟩, ⟨"c", 2, 5/2⟩, ⟨"d", 3, 7/2⟩,
        ⟨"e", 4, 9/2⟩, ⟨"f", 5, 11/2⟩, ⟨"g.", 6, 13/2⟩] 10 5).map
        (fun e => (e.winStart, e.winEnd, e.hl)) =
      [(0, 5, 0), (0, 5, 1), (0, 5, 2), (0, 5, 3), (0, 5, 4), (5, 7, 5), (5, 7, 6)] := by
  refine ⟨?_, ?_, ?_⟩
  · intro words total wsize e he
    obtain ⟨hb, -⟩ := processSentences_idx words total (max 1 wsize)
      (sentenceBoundaries words) 0 (sentenceBoundaries_pairwise words)
    obtain ⟨b, hbmem, h1, h2, h3, h4, h5⟩ := hb e he
    exact ⟨h2, h3, h4, b, hbmem, h1, h5⟩
  · intro words total wsize
    exact (processSentences_idx words total (max 1 wsize)
      (sentenceBoundaries words) 0 (sentenceBoundaries_pairwise words)).2
  · have e1 : endsSentence "a" = false := by decide
    have e2 : endsSentence "b" = false := by decide
    have e3 : endsSentence "c" = false := by decide
    have e4 : endsSentence "d" = false := by decide
    have e5 : endsSentence "e" = false := by decide
    have e6 : endsSentence "f" = false := by decide
    have e7 : endsSentence "g." = true := by decide
    norm_num [buildEvents, processSentences, processWindows, processWords, stepWord,
      stepStart, stepNextStart, stepEnd, sentenceBoundaries, sentenceBoundariesAux,
      e1, e2, e3, e4, e5, e6, e7, wordAt, CAPTION_PRE_ROLL_S, CAPTION_POST_ROLL_S]

/-- Closed witness for `caption_window_structure`. -/
theorem caption_window_structure_witness :
    (⟨0, 1, 0, 0, 11/10⟩ : CapEvent).winStart ≤ (⟨0, 1, 0, 0, 11/10⟩ : CapEvent).hl
    ∧ (⟨0, 1, 0, 0, 11/10⟩ : CapEvent).hl < (⟨0, 1, 0, 0, 11/10⟩ : CapEvent).winEnd
    ∧ (⟨0, 1, 0, 0, 11/10⟩ : CapEvent).winEnd
      ≤ (⟨0, 1, 0, 0, 11/10⟩ : CapEvent).winStart + max 1 5
    ∧ ∃ b ∈ sentenceBoundaries [⟨"hi.", 0, 1⟩],
        b.1 ≤ (⟨0, 1, 0, 0, 11/10⟩ : CapEvent).winStart
        ∧ (⟨0, 1, 0, 0, 11/10⟩ : CapEvent).winEnd ≤ b.2 :=
  caption_window_structure.1 [⟨"hi.", 0, 1⟩] 2 5 ⟨0, 1, 0, 0, 11/10⟩ (by
    have eh : endsSentence "hi." = true := by decide
    norm_num [buildEvents, processSentences, processWindows, processWords, stepWord,
      stepStart, stepNextStart, stepEnd, sentenceBoundaries, sentenceBoundariesAux,
      eh, wordAt, CAPTION_PRE_ROLL_S, CAPTION_POST_ROLL_S])

/-- Closed witness for `caption_events_monotone_no_overlap`. -/
theorem caption_events_monotone_no_overlap_witness :
    0 ≤ (⟨0, 1, 0, 0, 11/10⟩ : CapEvent).t0
    ∧ (⟨0, 1, 0, 0, 11/10⟩ : CapEvent).t0 < (⟨0, 1, 0, 0, 11/10⟩ : CapEvent).t1 :=
  (caption_events_monotone_no_overlap [⟨"a.", 0, 1⟩, ⟨"b.", 2, 3⟩] 5 5).2
    ⟨0, 1, 0, 0, 11/10⟩ (by
      have ea : endsSentence "a." = true := by decide
      have eb : endsSentence "b." = true := by decide
      norm_num [buildEvents, processSentences, processWindows, processWords, stepWord,
        stepStart, stepNextStart, stepEnd, sentenceBoundaries, sentenceBoundariesAux,
        ea, eb, wordAt, CAPTION_PRE_ROLL_S, CAPTION_POST_ROLL_S])

end StraightSlop
